import Mathlib

/-!

# Verification of the PolarSSL elliptic-curve engine (`ecp.c`) and SSL session cache

Shallow embedding of the elliptic-curve arithmetic engine over GF(p)

(`src/unnamed/part_000`, PolarSSL `ecp.c`) and of the SSL session cache

(`src/library/ssl_cache.c`).

MPIs (signed arbitrary-precision integers, sign-magnitude representation)

are modelled as `Int`.  A freed / freshly initialised MPI has value `0`.

Fallible operations return `Except EcpError _`; MPI allocation failures are

not modelled (allocation is assumed to succeed), so the only failures are

the ones raised explicitly by the code: `POLARSSL_ERR_ECP_GENERIC` and

failures of `mpi_mod_mpi` / `mpi_inv_mod`.

-/

namespace Ecp

/-- Error kinds surfaced by the engine: `genericError` is
`POLARSSL_ERR_ECP_GENERIC`; `mpiError` stands for any error code coming out
of an MPI primitive (`mpi_mod_mpi` on a non-positive modulus, `mpi_inv_mod`
on a non-invertible argument). -/
inductive EcpError where
  | genericError
  | mpiError
deriving Repr, DecidableEq

/-- `mpi_msb`: number of significant bits of the magnitude; the sign is
ignored.  `mpi_msb 0 = 0`. -/
def mpi_msb (N : Int) : Nat :=
  if N = 0 then 0 else N.natAbs.log2 + 1

/-- `mpi_get_bit`: bit `pos` of the magnitude (the sign is ignored),
returned as `0` or `1` exactly as the C function returns an `int`. -/
def mpi_get_bit (m : Int) (pos : Nat) : Nat :=
  m.natAbs / 2 ^ pos % 2

/-- `mpi_shift_l`: shifts the magnitude left, keeping the sign; this is
exact multiplication by `2 ^ count`. -/
def mpi_shift_l (X : Int) (count : Nat) : Int :=
  X * 2 ^ count

/-- `mpi_shift_r`: shifts the magnitude right, keeping the sign. -/
def mpi_shift_r (X : Int) (count : Nat) : Int :=
  X.sign * (X.natAbs / 2 ^ count : Nat)

/-- `mpi_add_abs`: `X = |A| + |B|` with the result sign set positive. -/
def mpi_add_abs (A B : Int) : Int :=
  (A.natAbs + B.natAbs : Nat)

/-- `mpi_mod_mpi( R, A, B )`: fails on a non-positive modulus
(`POLARSSL_ERR_MPI_DIVISION_BY_ZERO` / `POLARSSL_ERR_MPI_NEGATIVE_VALUE`),
otherwise returns the least non-negative residue of `A` modulo `B`. -/
def mpi_mod_mpi (A B : Int) : Except EcpError Int :=
  if B ≤ 0 then throw .mpiError else pure (A % B)

/-- `mpi_inv_mod( X, A, N )`: fails on a non-positive modulus or when `A`
is not invertible modulo `N`; otherwise returns the inverse of `A` in
`[0, N)`, computed here through the extended Euclidean algorithm. -/
def mpi_inv_mod (A N : Int) : Except EcpError Int :=
  if N ≤ 0 then throw .mpiError
  else if Int.gcd A N ≠ 1 then throw .mpiError
  else pure (Nat.gcdA (A % N).toNat N.toNat % N)

/-- The `MOD_SUB` fix-up loop: `while( mpi_cmp_int( &N, 0 ) < 0 )
mpi_add_mpi( &N, &N, &grp->P )`.  The `0 < P` conjunct makes the function
total; for `P ≤ 0` the C loop would not terminate, and the engine only
ever runs it with `P` the field prime. -/
def mod_sub_fix (P N : Int) : Int :=
  if h : 0 < P ∧ N < 0 then mod_sub_fix P (N + P) else N
termination_by (-N).toNat
decreasing_by
  have h1 : (0:Int) < -N := by omega
  have h2 : -(N + P) < -N := by omega
  omega

/-- The `MOD_ADD` fix-up loop: `while( mpi_cmp_mpi( &N, &grp->P ) >= 0 )
mpi_sub_mpi( &N, &N, &grp->P )`.  Total for the same reason as
`mod_sub_fix`. -/
def mod_add_fix (P N : Int) : Int :=
  if h : 0 < P ∧ P ≤ N then mod_add_fix P (N - P) else N
termination_by N.toNat
decreasing_by omega

/-- An affine point (`ecp_point`): `(X, Y)` plus the `is_zero` flag marking
the point at infinity. -/
structure EcpPoint where
  is_zero : Bool
  X : Int
  Y : Int
deriving Repr, DecidableEq

/-- `ecp_point_init` / the state after `ecp_point_free`: `is_zero = 1` with
both coordinate MPIs released (value `0`). -/
def ecp_point_init : EcpPoint := ⟨true, 0, 0⟩

/-- `ecp_set_zero`: set `is_zero` and release both coordinates. -/
def ecp_set_zero (_pt : EcpPoint) : EcpPoint := ⟨true, 0, 0⟩

/-- The tag standing for the group's optional `modp` function pointer.  The
only fast-reduction routine in the source is `ecp_mod_p521`. -/
inductive ModpId where
  | p521
deriving Repr, DecidableEq

/-- An ECP group (`ecp_group`): prime `P`, curve constant `B`, generator
`G`, order `N`, optional fast reduction `modp` and its bit size `pbits`. -/
structure EcpGroup where
  P : Int
  B : Int
  G : EcpPoint
  N : Int
  modp : Option ModpId
  pbits : Nat
deriving Repr, DecidableEq

/-- `ecp_group_init`: all MPIs released (value `0`), `modp = NULL`,
`pbits = 0`. -/
def ecp_group_init : EcpGroup :=
  { P := 0, B := 0, G := ecp_point_init, N := 0, modp := none, pbits := 0 }

/-- `ecp_mod_p521` (FIPS 186-3 D.2.5 quasi-reduction): `M` receives the
low `521` bits of the magnitude of `N`, then `N` is shifted right by `521`
bits and `M` is added back with `mpi_add_abs`.  The early return for
`N->n < P521_SIZE_INT` is value-equivalent on the reachable domain
(`N ≥ 0`, enforced by the caller `ecp_modp`): there `|N| < 2^521` implies
the high part is `0` and the computed value is `N` itself. -/
def ecp_mod_p521 (N : Int) : Int :=
  let M : Int := (N.natAbs % 2 ^ 521 : Nat)
  mpi_add_abs (mpi_shift_r N 521) M

/-- Dispatch through the group's `modp` function pointer. -/
def modp_run : ModpId → Int → Except EcpError Int
  | .p521, N => pure (ecp_mod_p521 N)

/-- `ecp_modp`: wrapper around the fast quasi-modp functions, with fallback
to `mpi_mod_mpi`.  With a fast reduction present, a negative input or one
of more than `2 * pbits` bits is rejected with `POLARSSL_ERR_ECP_GENERIC`;
after the quasi-reduction the two fix-up loops bring the value into
`[0, P)`. -/
def ecp_modp (grp : EcpGroup) (N : Int) : Except EcpError Int :=
  match grp.modp with
  | none => mpi_mod_mpi N grp.P
  | some m =>
    if N < 0 ∨ mpi_msb N > 2 * grp.pbits then throw .genericError
    else do
      let N' ← modp_run m N
      pure (mod_add_fix grp.P (mod_sub_fix grp.P N'))

/-- A well-formed group: the field modulus exceeds `1`, and when the
P-521 fast reduction is installed the group really is the P-521 group
(`P = 2^521 - 1` and `pbits = 521`), which is the only configuration the
engine ever installs it for. -/
def ValidGroup (grp : EcpGroup) : Prop :=
  1 < grp.P ∧ (grp.modp = some ModpId.p521 → grp.P = 2 ^ 521 - 1 ∧ grp.pbits = 521)

instance (grp : EcpGroup) : Decidable (ValidGroup grp) := by
  unfold ValidGroup; infer_instance

structure EcpPtjac where
  X : Int
  Y : Int
  Z : Int
deriving Repr, DecidableEq

/-- `ecp_ptjac_set_zero`: `(1, 1, 0)`. -/
def ecp_ptjac_set_zero : EcpPtjac := ⟨1, 1, 0⟩

/-- The reduction-range invariant for Jacobian points:
`0 ≤ X, Y, Z < p`. -/
def inRangeJ (grp : EcpGroup) (P : EcpPtjac) : Prop :=
  0 ≤ P.X ∧ P.X < grp.P ∧ 0 ≤ P.Y ∧ P.Y < grp.P ∧ 0 ≤ P.Z ∧ P.Z < grp.P

/-- The reduction-range invariant for the coordinates of a non-zero affine
point: `0 ≤ X, Y < p`. -/
def inRangeA (grp : EcpGroup) (Q : EcpPoint) : Prop :=
  0 ≤ Q.X ∧ Q.X < grp.P ∧ 0 ≤ Q.Y ∧ Q.Y < grp.P

instance (grp : EcpGroup) (P : EcpPtjac) : Decidable (inRangeJ grp P) := by
  unfold inRangeJ; infer_instance

instance (grp : EcpGroup) (Q : EcpPoint) : Decidable (inRangeA grp Q) := by
  unfold inRangeA; infer_instance

/-- `ecp_aff_to_jac`: the zero point becomes `(1, 1, 0)`, a non-zero affine
point `(X, Y)` becomes `(X, Y, 1)`. -/
def ecp_aff_to_jac (aff : EcpPoint) : EcpPtjac :=
  if aff.is_zero then ecp_ptjac_set_zero else ⟨aff.X, aff.Y, 1⟩

/-- `ecp_jac_to_aff`: `Z = 0` projects to the affine zero point; otherwise
`aff = (X / Z² mod p, Y / Z³ mod p)` computed through `mpi_inv_mod` and
`MOD_MUL` reductions. -/
def ecp_jac_to_aff (grp : EcpGroup) (jac : EcpPtjac) : Except EcpError EcpPoint := do
  if jac.Z = 0 then pure (ecp_set_zero ecp_point_init)
  else do
    let Zi ← mpi_inv_mod jac.Z grp.P
    let ZZi ← ecp_modp grp (Zi * Zi)
    let X ← ecp_modp grp (jac.X * ZZi)
    let Y ← ecp_modp grp (jac.Y * ZZi)
    let Y ← ecp_modp grp (Y * Zi)
    pure ⟨false, X, Y⟩

/-- `ecp_double_jac`: point doubling `R = 2 P` in Jacobian coordinates
(GECC 3.21, short Weierstrass with `a = -3`), with the reduction macro
applied after each MPI operation exactly as in the source.  The halving of
`Y` adds `p` first when `Y` is odd (bit `0` of the magnitude), then shifts
right by one. -/
def ecp_double_jac (grp : EcpGroup) (P : EcpPtjac) : Except EcpError EcpPtjac := do
  if P.Z = 0 then pure ecp_ptjac_set_zero
  else do
    let T1 ← ecp_modp grp (P.Z * P.Z)
    let T2 := mod_sub_fix grp.P (P.X - T1)
    let T1 := mod_add_fix grp.P (P.X + T1)
    let T2 ← ecp_modp grp (T2 * T1)
    let T2 := mod_add_fix grp.P (T2 * 3)
    let Y := mod_add_fix grp.P (mpi_shift_l P.Y 1)
    let Z ← ecp_modp grp (Y * P.Z)
    let Y ← ecp_modp grp (Y * Y)
    let T3 ← ecp_modp grp (Y * P.X)
    let Y ← ecp_modp grp (Y * Y)
    let Y := mpi_shift_r (if mpi_get_bit Y 0 = 1 then Y + grp.P else Y) 1
    let X ← ecp_modp grp (T2 * T2)
    let T1 := mod_add_fix grp.P (mpi_shift_l T3 1)
    let X := mod_sub_fix grp.P (X - T1)
    let T1 := mod_sub_fix grp.P (T3 - X)
    let T1 ← ecp_modp grp (T1 * T2)
    let Y := mod_sub_fix grp.P (T1 - Y)
    pure ⟨X, Y, Z⟩

/-- `ecp_add_mixed`: `R = P + Q` in mixed affine-Jacobian coordinates
(GECC 3.22).  `P.Z = 0` returns `Q` lifted to Jacobian; `Q.is_zero`
returns a copy of `P`; `T1 = 0 ∧ T2 = 0` dispatches to the doubling;
`T1 = 0 ∧ T2 ≠ 0` returns the Jacobian zero point. -/
def ecp_add_mixed (grp : EcpGroup) (P : EcpPtjac) (Q : EcpPoint) :
    Except EcpError EcpPtjac := do
  if P.Z = 0 then pure (ecp_aff_to_jac Q)
  else if Q.is_zero then pure P
  else do
    let T1 ← ecp_modp grp (P.Z * P.Z)
    let T2 ← ecp_modp grp (T1 * P.Z)
    let T1 ← ecp_modp grp (T1 * Q.X)
    let T2 ← ecp_modp grp (T2 * Q.Y)
    let T1 := mod_sub_fix grp.P (T1 - P.X)
    let T2 := mod_sub_fix grp.P (T2 - P.Y)
    if T1 = 0 then
      if T2 = 0 then ecp_double_jac grp P
      else pure ecp_ptjac_set_zero
    else do
      let Z ← ecp_modp grp (P.Z * T1)
      let T3 ← ecp_modp grp (T1 * T1)
      let T4 ← ecp_modp grp (T3 * T1)
      let T3 ← ecp_modp grp (T3 * P.X)
      let T1 := mod_add_fix grp.P (T3 * 2)
      let X ← ecp_modp grp (T2 * T2)
      let X := mod_sub_fix grp.P (X - T1)
      let X := mod_sub_fix grp.P (X - T4)
      let T3 := mod_sub_fix grp.P (T3 - X)
      let T3 ← ecp_modp grp (T3 * T2)
      let T4 ← ecp_modp grp (T4 * P.Y)
      let Y := mod_sub_fix grp.P (T3 - T4)
      pure ⟨X, Y, Z⟩

/-- The straight-line general-case tail of `ecp_add_mixed` (the code after
the `T1 = 0` test succeeds the not-equal branch), parameterised by the
already-reduced `T1` and `T2`; used by the unfolding lemma
`ecp_add_mixed_eq` below. -/
def ecp_add_mixed_tail (grp : EcpGroup) (P : EcpPtjac) (t1 t2 : Int) :
    Except EcpError EcpPtjac := do
  let Z ← ecp_modp grp (P.Z * t1)
  let T3 ← ecp_modp grp (t1 * t1)
  let T4 ← ecp_modp grp (T3 * t1)
  let T3 ← ecp_modp grp (T3 * P.X)
  let T1 := mod_add_fix grp.P (T3 * 2)
  let X ← ecp_modp grp (t2 * t2)
  let X := mod_sub_fix grp.P (X - T1)
  let X := mod_sub_fix grp.P (X - T4)
  let T3 := mod_sub_fix grp.P (T3 - X)
  let T3 ← ecp_modp grp (T3 * t2)
  let T4 ← ecp_modp grp (T4 * P.Y)
  let Y := mod_sub_fix grp.P (T3 - T4)
  pure ⟨X, Y, Z⟩

/-- `ecp_add`: the public affine wrapper; lift `P` to Jacobian, mixed-add
`Q`, project back. -/
def ecp_add (grp : EcpGroup) (P Q : EcpPoint) : Except EcpError EcpPoint := do
  let J := ecp_aff_to_jac P
  let J ← ecp_add_mixed grp J Q
  ecp_jac_to_aff grp J

/-- The body of the `ecp_mul` ladder, iterating `pos` down to `0`.  Each
iteration doubles `Q[0]`, computes `Q[1] = Q[0] + P`, and copies
`Q[ mpi_get_bit( m, pos ) ]` into `Q[0]` (an unconditional copy whose
source index is the current scalar bit). -/
def ecp_mul_loop (grp : EcpGroup) (m : Int) (P : EcpPoint) :
    Nat → EcpPtjac → Except EcpError EcpPtjac
  | 0, q0 => do
    let q0 ← ecp_double_jac grp q0
    let q1 ← ecp_add_mixed grp q0 P
    pure (if mpi_get_bit m 0 = 1 then q1 else q0)
  | pos + 1, q0 => do
    let q0 ← ecp_double_jac grp q0
    let q1 ← ecp_add_mixed grp q0 P
    ecp_mul_loop grp m P pos (if mpi_get_bit m (pos + 1) = 1 then q1 else q0)

/-- `ecp_mul`: integer multiplication `R = m * P` (GECC 5.7, SPA-resistant
variant).  `m = 0` sets `R` to the zero point; otherwise the ladder runs
from bit `mpi_msb m - 1` down to bit `0` starting from the Jacobian zero,
and the result is projected to affine. -/
def ecp_mul (grp : EcpGroup) (m : Int) (P : EcpPoint) : Except EcpError EcpPoint := do
  if m = 0 then pure (ecp_set_zero ecp_point_init)
  else do
    let q0 ← ecp_mul_loop grp m P (mpi_msb m - 1) ecp_ptjac_set_zero
    ecp_jac_to_aff grp q0

/-- The three point-level operations one ladder iteration performs:
`ecp_double_jac`, `ecp_add_mixed`, and the copy of `Q[bit]` into `Q[0]`
(`ecp_ptjac_copy`). -/
inductive LadderOp where
  | double
  | addMixed
  | copy
deriving Repr, DecidableEq

/-- The fixed per-iteration operation pattern, repeated `n` times. -/
def ladderOps (n : Nat) : List LadderOp :=
  (List.replicate n [LadderOp.double, LadderOp.addMixed, LadderOp.copy]).flatten

/-- `ecp_mul_loop` instrumented to record, in execution order, the point
operations each iteration performs; the control flow is exactly that of
`ecp_mul_loop`. -/
def ecp_mul_loop_traced (grp : EcpGroup) (m : Int) (P : EcpPoint) :
    Nat → EcpPtjac → Except EcpError (EcpPtjac × List LadderOp)
  | 0, q0 => do
    let q0 ← ecp_double_jac grp q0
    let q1 ← ecp_add_mixed grp q0 P
    pure (if mpi_get_bit m 0 = 1 then q1 else q0,
      [LadderOp.double, LadderOp.addMixed, LadderOp.copy])
  | pos + 1, q0 => do
    let q0 ← ecp_double_jac grp q0
    let q1 ← ecp_add_mixed grp q0 P
    let r ← ecp_mul_loop_traced grp m P pos
      (if mpi_get_bit m (pos + 1) = 1 then q1 else q0)
    pure (r.1, [LadderOp.double, LadderOp.addMixed, LadderOp.copy] ++ r.2)

/-- `ecp_mul` instrumented with the operation trace of its ladder. -/
def ecp_mul_traced (grp : EcpGroup) (m : Int) (P : EcpPoint) :
    Except EcpError (EcpPoint × List LadderOp) := do
  if m = 0 then pure (ecp_set_zero ecp_point_init, [])
  else do
    let r ← ecp_mul_loop_traced grp m P (mpi_msb m - 1) ecp_ptjac_set_zero
    let R ← ecp_jac_to_aff grp r.1
    pure (R, r.2)

/-- The operation sequence `ecp_mul` performs for scalar `m`, a function of
`mpi_msb m` alone. -/
def ecp_mul_ops (m : Int) : List LadderOp :=
  if m = 0 then [] else ladderOps (mpi_msb m)

/-- `ecp_point_read_string`: imports a non-zero point; string parsing of
the (well-formed) coordinate literals is abstracted into the parsed
values. -/
def ecp_point_read_string (x y : Int) : EcpPoint := ⟨false, x, y⟩

/-- `ecp_group_read_string`: sets `P`, `B`, `G`, `N` of the group; `modp`
and `pbits` are not touched. -/
def ecp_group_read_string (grp : EcpGroup) (p b gx gy n : Int) : EcpGroup :=
  { grp with P := p, B := b, G := ecp_point_read_string gx gy, N := n }

/-- Modelled from the spec: the named-curve identifiers
`POLARSSL_ECP_DP_SECP192R1` … `POLARSSL_ECP_DP_SECP521R1` are declared in
the header `polarssl/ecp.h`, which is absent from the sources; the spec
lists the five identifiers, modelled here as successive naturals. -/
def POLARSSL_ECP_DP_SECP192R1 : Nat := 0

/-- Modelled from the spec: see `POLARSSL_ECP_DP_SECP192R1`. -/
def POLARSSL_ECP_DP_SECP224R1 : Nat := 1

/-- Modelled from the spec: see `POLARSSL_ECP_DP_SECP192R1`. -/
def POLARSSL_ECP_DP_SECP256R1 : Nat := 2

/-- Modelled from the spec: see `POLARSSL_ECP_DP_SECP192R1`. -/
def POLARSSL_ECP_DP_SECP384R1 : Nat := 3

/-- Modelled from the spec: see `POLARSSL_ECP_DP_SECP192R1`. -/
def POLARSSL_ECP_DP_SECP521R1 : Nat := 4

/-- Modelled from the spec: the curve parameter tables
(`POLARSSL_ECP_SECP192R1_P` and friends) live in `polarssl/ecp.h`, absent
from the sources; per the spec they carry the standardized SEC1 /
FIPS 186-3 values, reproduced here. -/
def secp192r1_params : Int × Int × Int × Int × Int :=
  ( 0xFFFFFFFFFFFFFFFFFFFFFFFFFFFFFFFEFFFFFFFFFFFFFFFF
  , 0x64210519E59C80E70FA7E9AB72243049FEB8DEECC146B9B1
  , 0x188DA80EB03090F67CBF20EB43A18800F4FF0AFD82FF1012
  , 0x07192B95FFC8DA78631011ED6B24CDD573F977A11E794811
  , 0xFFFFFFFFFFFFFFFFFFFFFFFF99DEF836146BC9B1B4D22831 )

/-- Modelled from the spec: see `secp192r1_params`. -/
def secp224r1_params : Int × Int × Int × Int × Int :=
  ( 0xFFFFFFFFFFFFFFFFFFFFFFFFFFFFFFFF000000000000000000000001
  , 0xB4050A850C04B3ABF54132565044B0B7D7BFD8BA270B39432355FFB4
  , 0xB70E0CBD6BB4BF7F321390B94A03C1D356C21122343280D6115C1D21
  , 0xBD376388B5F723FB4C22DFE6CD4375A05A07476444D5819985007E34
  , 0xFFFFFFFFFFFFFFFFFFFFFFFFFFFF16A2E0B8F03E13DD29455C5C2A3D )

/-- Modelled from the spec: see `secp192r1_params`. -/
def secp256r1_params : Int × Int × Int × Int × Int :=
  ( 0xFFFFFFFF00000001000000000000000000000000FFFFFFFFFFFFFFFFFFFFFFFF
  , 0x5AC635D8AA3A93E7B3EBBD55769886BC651D06B0CC53B0F63BCE3C3E27D2604B
  , 0x6B17D1F2E12C4247F8BCE6E563A440F277037D812DEB33A0F4A13945D898C296
  , 0x4FE342E2FE1A7F9B8EE7EB4A7C0F9E162BCE33576B315ECECBB6406837BF51F5
  , 0xFFFFFFFF00000000FFFFFFFFFFFFFFFFBCE6FAADA7179E84F3B9CAC2FC632551 )

/-- Modelled from the spec: see `secp192r1_params`. -/
def secp384r1_params : Int × Int × Int × Int × Int :=
  ( 0xFFFFFFFFFFFFFFFFFFFFFFFFFFFFFFFFFFFFFFFFFFFFFFFFFFFFFFFFFFFFFFFEFFFFFFFF0000000000000000FFFFFFFF
  , 0xB3312FA7E23EE7E4988E056BE3F82D19181D9C6EFE8141120314088F5013875AC656398D8A2ED19D2A85C8EDD3EC2AEF
  , 0xAA87CA22BE8B05378EB1C71EF320AD746E1D3B628BA79B9859F741E082542A385502F25DBF55296C3A545E3872760AB7
  , 0x3617DE4A96262C6F5D9E98BF9292DC29F8F41DBD289A147CE9DA3113B5F0B8C00A60B1CE1D7E819D7A431D7C90EA0E5F
  , 0xFFFFFFFFFFFFFFFFFFFFFFFFFFFFFFFFFFFFFFFFFFFFFFFFC7634D81F4372DDF581A0DB248B0A77AECEC196ACCC52973 )

/-- Modelled from the spec: see `secp192r1_params`. -/
def secp521r1_params : Int × Int × Int × Int × Int :=
  ( 0x1FFFFFFFFFFFFFFFFFFFFFFFFFFFFFFFFFFFFFFFFFFFFFFFFFFFFFFFFFFFFFFFFFFFFFFFFFFFFFFFFFFFFFFFFFFFFFFFFFFFFFFFFFFFFFFFFFFFFFFFFFFFFFFFFF
  , 0x051953EB9618E1C9A1F929A21A0B68540EEA2DA725B99B315F3B8B489918EF109E156193951EC7E937B1652C0BD3BB1BF073573DF883D2C34F1EF451FD46B503F00
  , 0x00C6858E06B70404E9CD9E3ECB662395B4429C648139053FB521F828AF606B4D3DBAA14B5E77EFE75928FE1DC127A2FFA8DE3348B3C1856A429BF97E7E31C2E5BD66
  , 0x011839296A789A3BC0045C8A5FB42C7D1BD998F54449579B446817AFBD17273E662C97EE72995EF42640C550B9013FAD0761353C7086A272C24088BE94769FD16650
  , 0x1FFFFFFFFFFFFFFFFFFFFFFFFFFFFFFFFFFFFFFFFFFFFFFFFFFFFFFFFFFFFFFFFFA51868783BF2F966B7FCC0148F709A5D03BB5C9B8899C47AEBB6FB71E91386409 )

/-- `ecp_use_known_dp`: populate a group from a named-curve identifier.
Only the `SECP521R1` case assigns `modp` and `pbits`; an unknown
identifier yields `POLARSSL_ERR_ECP_GENERIC`. -/
def ecp_use_known_dp (grp : EcpGroup) (index : Nat) : Except EcpError EcpGroup :=
  if index = POLARSSL_ECP_DP_SECP192R1 then
    pure (ecp_group_read_string grp secp192r1_params.1 secp192r1_params.2.1
      secp192r1_params.2.2.1 secp192r1_params.2.2.2.1 secp192r1_params.2.2.2.2)
  else if index = POLARSSL_ECP_DP_SECP224R1 then
    pure (ecp_group_read_string grp secp224r1_params.1 secp224r1_params.2.1
      secp224r1_params.2.2.1 secp224r1_params.2.2.2.1 secp224r1_params.2.2.2.2)
  else if index = POLARSSL_ECP_DP_SECP256R1 then
    pure (ecp_group_read_string grp secp256r1_params.1 secp256r1_params.2.1
      secp256r1_params.2.2.1 secp256r1_params.2.2.2.1 secp256r1_params.2.2.2.2)
  else if index = POLARSSL_ECP_DP_SECP384R1 then
    pure (ecp_group_read_string grp secp384r1_params.1 secp384r1_params.2.1
      secp384r1_params.2.2.1 secp384r1_params.2.2.2.1 secp384r1_params.2.2.2.2)
  else if index = POLARSSL_ECP_DP_SECP521R1 then
    pure (ecp_group_read_string
      { grp with modp := some ModpId.p521, pbits := 521 }
      secp521r1_params.1 secp521r1_params.2.1 secp521r1_params.2.2.1
      secp521r1_params.2.2.2.1 secp521r1_params.2.2.2.2)
  else throw .genericError

/-- A small concrete test group: the curve `y² = x³ − 3x + 3` over
`GF(7)`, with generator `(1, 1)` of order `9`; used to instantiate
witnesses. -/
def grp7 : EcpGroup := ⟨7, 3, ⟨false, 1, 1⟩, 9, none, 0⟩

/-- The group produced by `ecp_use_known_dp` for `SECP192R1` on a freshly
initialised group; its `modp` is `NULL` (generic reduction). -/
def grp192 : EcpGroup :=
  ecp_group_read_string ecp_group_init secp192r1_params.1 secp192r1_params.2.1
    secp192r1_params.2.2.1 secp192r1_params.2.2.2.1 secp192r1_params.2.2.2.2

instance : DecidableEq (Except EcpError Int) := fun a b =>
  match a, b with
  | .ok x, .ok y => decidable_of_iff (x = y) (by simp)
  | .error x, .error y => decidable_of_iff (x = y) (by simp)
  | .ok _, .error _ => isFalse (by simp)
  | .error _, .ok _ => isFalse (by simp)

/-- The short-Weierstrass curve `y² = x³ − 3x + b` over `GF(p)` whose
group law the engine's formulas implement (`a = −3` is implicit for the
supported curves). -/
def Wcurve (grp : EcpGroup) (p : ℕ) : WeierstrassCurve.Affine (ZMod p) :=
  { a₁ := 0, a₂ := 0, a₃ := 0, a₄ := -3, a₆ := ((grp.B : Int) : ZMod p) }

/-- The engine's affine point `Q` represents the Mathlib curve point `A`:
either both are the zero point, or `Q` is non-zero with reduced
coordinates whose images in `GF(p)` carry a nonsingular curve point equal
to `A`. -/
def AffRep (grp : EcpGroup) (p : ℕ) (Q : EcpPoint) (A : (Wcurve grp p).Point) : Prop :=
  (Q.is_zero = true ∧ A = 0) ∨
  (Q.is_zero = false ∧ inRangeA grp Q ∧
    ∃ h : (Wcurve grp p).Nonsingular ((Q.X : ZMod p)) ((Q.Y : ZMod p)),
      A = WeierstrassCurve.Affine.Point.some h)

/-- The engine's Jacobian point `J` represents the Mathlib curve point
`A`: the coordinates are reduced, and either `Z = 0` and `A` is the zero
point, or `Z ≠ 0` and `(X/Z², Y/Z³)` carries a nonsingular curve point
equal to `A`. -/
def JacRep (grp : EcpGroup) (p : ℕ) [Fact p.Prime] (J : EcpPtjac)
    (A : (Wcurve grp p).Point) : Prop :=
  inRangeJ grp J ∧
  ((J.Z = 0 ∧ A = 0) ∨
   (J.Z ≠ 0 ∧
    ∃ h : (Wcurve grp p).Nonsingular ((J.X : ZMod p) / (J.Z : ZMod p) ^ 2)
        ((J.Y : ZMod p) / (J.Z : ZMod p) ^ 3),
      A = WeierstrassCurve.Affine.Point.some h))

/-- The context for the functional-correctness results: a valid group
whose modulus is the odd prime `p`. -/
structure GoodGroup (grp : EcpGroup) (p : ℕ) : Prop where
  valid : ValidGroup grp
  hp : (p : Int) = grp.P
  prime : p.Prime
  podd : p ≠ 2

instance fact_prime_7 : Fact (Nat.Prime 7) := ⟨by norm_num⟩

end Ecp

namespace SslCache

/-- An SSL session record, restricted to the fields the cache reads and
writes: the session id bytes with their significant length, the 48-byte
master secret, the ciphersuite and compression identifiers, and the peer
certificate pointer (modelled as present / absent). -/
structure SslSession where
  ciphersuite : Int
  compression : Int
  length : Nat
  id : List Nat
  master : List Nat
  peer_cert : Bool
deriving Repr, DecidableEq

/-- The uthash key of a session: the key length together with the first
`length` bytes of the id (`HASH_FIND( hh, head, session->id,
session->length, entry )` compares both the stored key length and the key
bytes). -/
def cacheKey (s : SslSession) : Nat × List Nat := (s.length, s.id.take s.length)

/-- A cache slot (`ssl_cache_entry`): a timestamp plus the embedded
session. -/
structure SslCacheEntry where
  timestamp : Int
  session : SslSession
deriving Repr, DecidableEq

/-- The cache context: timeout, entry cap, and the uthash table.  uthash
keeps all entries on a doubly-linked list in insertion order with the head
the oldest entry; the table is modelled as that list, `HASH_ADD` appending
at the tail. -/
structure SslCacheContext where
  timeout : Int
  max_entries : Int
  sessions : List SslCacheEntry
deriving Repr, DecidableEq

/-- The cache never stores the peer certificate
(`entry->session.peer_cert = NULL`). -/
def stripCert (s : SslSession) : SslSession := { s with peer_cert := false }

/-- `ssl_cache_set`.  `t` is the value of `time( NULL )`.  The second
component of the result records whether the call allocated a fresh entry
(`malloc`); allocation is modelled as always succeeding.  The unreachable
inner `[]` case (the eviction branch requires at least `max_entries ≥ 1`
entries) returns the state unchanged. -/
def ssl_cache_set (t : Int) (cache : SslCacheContext) (session : SslSession) :
    SslCacheContext × Bool :=
  match cache.sessions.findIdx? (fun e => cacheKey e.session = cacheKey session) with
  | none =>
    if 0 < cache.max_entries ∧ cache.max_entries.toNat ≤ cache.sessions.length then
      match cache.sessions with
      | [] => (cache, false)
      | _oldest :: rest =>
        ({ cache with sessions := rest ++ [⟨t, stripCert session⟩] }, false)
    else
      ({ cache with sessions := cache.sessions ++ [⟨t, stripCert session⟩] }, true)
  | some i =>
    match h : cache.sessions[i]? with
    | none => (cache, false)
    | some e =>
      if cache.timeout = 0 ∨ t - e.timestamp ≤ cache.timeout then
        ({ cache with
            sessions := cache.sessions.set i ⟨e.timestamp, stripCert session⟩ }, false)
      else
        ({ cache with
            sessions := cache.sessions.eraseIdx i ++ [⟨t, stripCert session⟩] }, false)

end SslCache

namespace Ecp

theorem mod_sub_fix_of_nonneg {P N : Int} (h : 0 ≤ N) : mod_sub_fix P N = N := by
  rw [mod_sub_fix, dif_neg (by omega)]

theorem mod_sub_fix_eq_emod {P N : Int} (hP : 0 < P) (hN : N < P) :
    mod_sub_fix P N = N % P := by
  by_cases h : 0 ≤ N
  · rw [mod_sub_fix_of_nonneg h, Int.emod_eq_of_lt h hN]
  · rw [mod_sub_fix, dif_pos ⟨hP, by omega⟩,
      mod_sub_fix_eq_emod hP (by omega),
      show N + P = N + P * 1 by ring, Int.add_mul_emod_self_left]
termination_by (-N).toNat
decreasing_by omega

theorem mod_add_fix_eq_emod {P N : Int} (hP : 0 < P) (hN : 0 ≤ N) :
    mod_add_fix P N = N % P := by
  by_cases h : N < P
  · rw [mod_add_fix, dif_neg (by omega), Int.emod_eq_of_lt hN h]
  · rw [mod_add_fix, dif_pos ⟨hP, by omega⟩, mod_add_fix_eq_emod hP (by omega),
      show N - P = N + P * (-1) by ring, Int.add_mul_emod_self_left]
termination_by N.toNat
decreasing_by omega

theorem mod_add_fix_nonneg {P N : Int} (hN : 0 ≤ N) : 0 ≤ mod_add_fix P N := by
  rw [mod_add_fix]
  split
  · exact mod_add_fix_nonneg (by omega)
  · exact hN
termination_by N.toNat
decreasing_by omega

theorem mod_add_fix_lt {P N : Int} (hP : 0 < P) : mod_add_fix P N < P := by
  rw [mod_add_fix]
  split
  · exact mod_add_fix_lt hP
  · omega
termination_by N.toNat
decreasing_by omega

theorem mpi_msb_le {N : Int} {k : Nat} (h0 : 0 ≤ N) (h : N < 2 ^ k) : mpi_msb N ≤ k := by
  unfold mpi_msb
  split
  · omega
  · rename_i hne
    have h1 : (N.natAbs : Int) < ((2 ^ k : Nat) : Int) := by
      rw [Int.natAbs_of_nonneg h0]; exact_mod_cast h
    have h2 : N.natAbs < 2 ^ k := by exact_mod_cast h1
    have h3 : N.natAbs ≠ 0 := by
      simpa [Int.natAbs_eq_zero] using hne
    have := (Nat.log2_lt h3).mpr h2
    omega

theorem ecp_mod_p521_spec {N : Int} (h : 0 ≤ N) :
    ecp_mod_p521 N = N / 2 ^ 521 + N % 2 ^ 521 := by
  unfold ecp_mod_p521 mpi_add_abs mpi_shift_r
  rcases lt_or_eq_of_le h with h' | h'
  · have hd : ((N.natAbs / 2 ^ 521 : Nat) : Int) = N / 2 ^ 521 := by
      rw [Int.natCast_ediv]
      show ((N.natAbs : Int)) / ((2 ^ 521 : Nat) : Int) = N / 2 ^ 521
      rw [Int.natAbs_of_nonneg h]
      norm_cast
    have hm : ((N.natAbs % 2 ^ 521 : Nat) : Int) = N % 2 ^ 521 := by
      rw [Int.ofNat_emod]
      show ((N.natAbs : Int)) % ((2 ^ 521 : Nat) : Int) = N % 2 ^ 521
      rw [Int.natAbs_of_nonneg h]
      norm_cast
    rw [Int.sign_eq_one_of_pos h', one_mul]
    push_cast
    rw [abs_of_nonneg h, abs_of_nonneg (Int.ediv_nonneg h (by positivity)),
      abs_of_nonneg (Int.emod_nonneg N (by positivity : (0:Int) < 2 ^ 521).ne')]
  · rw [← h']; simp

theorem ecp_mod_p521_nonneg (N : Int) : 0 ≤ ecp_mod_p521 N := by
  unfold ecp_mod_p521 mpi_add_abs
  exact Int.natCast_nonneg _

/-- On the Mersenne modulus `p = 2^521 - 1` the quasi-reduction preserves
the residue class. -/
theorem ecp_mod_p521_emod {N : Int} (h : 0 ≤ N) :
    ecp_mod_p521 N % (2 ^ 521 - 1) = N % (2 ^ 521 - 1) := by
  rw [ecp_mod_p521_spec h]
  have hN : N = 2 ^ 521 * (N / 2 ^ 521) + N % 2 ^ 521 := (Int.ediv_add_emod N _).symm
  conv_rhs => rw [hN]
  rw [show 2 ^ 521 * (N / 2 ^ 521) + N % 2 ^ 521
      = N / 2 ^ 521 + N % 2 ^ 521 + (2 ^ 521 - 1) * (N / 2 ^ 521) by ring]
  rw [Int.add_mul_emod_self_left]

/-- `MOD_MUL` correctness: on a valid group, a non-negative input below
`P²` (every product of two reduced values) reduces to the least
non-negative residue. -/
theorem ecp_modp_ok {grp : EcpGroup} (hv : ValidGroup grp) {N : Int}
    (h0 : 0 ≤ N) (hlt : N < grp.P * grp.P) :
    ecp_modp grp N = .ok (N % grp.P) := by
  obtain ⟨hP, h521⟩ := hv
  cases hm : grp.modp with
  | none =>
    simp only [ecp_modp, hm, mpi_mod_mpi]
    rw [if_neg (by omega)]
    rfl
  | some m =>
    cases m
    obtain ⟨hPeq, hbits⟩ := h521 hm
    have hmsb : mpi_msb N ≤ 2 * grp.pbits := by
      refine mpi_msb_le h0 ?_
      rw [hbits]
      calc N < grp.P * grp.P := hlt
        _ ≤ 2 ^ 521 * 2 ^ 521 := by
            have h1 : grp.P ≤ 2 ^ 521 := by rw [hPeq]; omega
            have h2 : (0:Int) ≤ grp.P := by omega
            exact mul_le_mul h1 h1 h2 (by positivity)
        _ = 2 ^ (2 * 521) := by ring
    simp only [ecp_modp, hm, modp_run]
    rw [if_neg (by omega)]
    simp only [pure_bind]
    rw [mod_sub_fix_of_nonneg (ecp_mod_p521_nonneg N),
      mod_add_fix_eq_emod (by omega) (ecp_mod_p521_nonneg N), hPeq,
      ecp_mod_p521_emod h0]
    rfl

/-- `mpi_inv_mod` correctness: for a coprime argument and modulus `> 1`,
it succeeds with the modular inverse in `[0, P)`. -/
theorem mpi_inv_mod_ok {a P : Int} (hP : 1 < P) (hgcd : Int.gcd a P = 1) :
    ∃ w, mpi_inv_mod a P = .ok w ∧ 0 ≤ w ∧ w < P ∧ a * w % P = 1 := by
  unfold mpi_inv_mod
  rw [if_neg (by omega), if_neg (by simp [hgcd])]
  have hPpos : (0:Int) < P := by omega
  refine ⟨_, rfl, Int.emod_nonneg _ (by omega), Int.emod_lt_of_pos _ hPpos, ?_⟩
  set x : Nat := (a % P).toNat with hx
  set y : Nat := P.toNat with hy
  have hxc : (x : Int) = a % P := Int.toNat_of_nonneg (Int.emod_nonneg _ (by omega))
  have hyc : (y : Int) = P := Int.toNat_of_nonneg (by omega)
  have hsplit : a = a % P + P * (a / P) := by
    rw [Int.emod_def]; ring
  have hgcd1 : Int.gcd (a % P) P = Int.gcd a P := by
    have hd1 : Int.gcd (a % P) P ∣ Int.gcd a P := by
      rw [← Int.natCast_dvd_natCast]
      refine Int.dvd_gcd ?_ Int.gcd_dvd_right
      have h3 : ((Int.gcd (a % P) P : Nat) : Int) ∣ a % P + P * (a / P) :=
        dvd_add Int.gcd_dvd_left (Dvd.dvd.mul_right Int.gcd_dvd_right _)
      rwa [← hsplit] at h3
    have hd2 : Int.gcd a P ∣ Int.gcd (a % P) P := by
      rw [← Int.natCast_dvd_natCast]
      refine Int.dvd_gcd ?_ Int.gcd_dvd_right
      rw [Int.emod_def]
      exact dvd_sub Int.gcd_dvd_left (Dvd.dvd.mul_right Int.gcd_dvd_right _)
    exact Nat.dvd_antisymm hd1 hd2
  have hxabs : x = (a % P).natAbs := by
    have h1 : ((a % P).natAbs : Int) = a % P :=
      Int.natAbs_of_nonneg (Int.emod_nonneg _ (by omega))
    have h2 : (x : Int) = ((a % P).natAbs : Int) := by rw [hxc, h1]
    exact_mod_cast h2
  have hyabs : y = P.natAbs := by
    have h1 : (P.natAbs : Int) = P := Int.natAbs_of_nonneg (by omega)
    have h2 : (y : Int) = (P.natAbs : Int) := by rw [hyc, h1]
    exact_mod_cast h2
  have hgcd2 : Nat.gcd x y = 1 := by
    rw [hxabs, hyabs]
    show Int.gcd (a % P) P = 1
    rw [hgcd1, hgcd]
  have bez : (1 : Int) = (x : Int) * Nat.gcdA x y + (y : Int) * Nat.gcdB x y := by
    have h1 := Nat.gcd_eq_gcd_ab x y
    rw [hgcd2] at h1
    exact_mod_cast h1
  have hxr : (x : Int) % P = (x : Int) := by
    refine Int.emod_eq_of_lt (by omega) ?_
    rw [hxc]
    exact Int.emod_lt_of_pos _ hPpos
  rw [Int.mul_emod a _ P, Int.emod_emod_of_dvd _ dvd_rfl, ← hxc, ← hxr,
    ← Int.mul_emod]
  have hfin : (x : Int) * Nat.gcdA x y = 1 + P * (-(Nat.gcdB x y)) := by
    rw [← hyc]
    linarith [bez]
  rw [hfin, Int.add_mul_emod_self_left, Int.emod_eq_of_lt (by omega) (by omega)]

/-- C3 (amended): with a fast-reduction `modp` present, a negative input or
one of bit length above `2 * pbits` makes `ecp_modp` fail with
`POLARSSL_ERR_ECP_GENERIC`. -/
theorem C3_modp_reject {grp : EcpGroup} {m : ModpId} (hm : grp.modp = some m)
    {N : Int} (h : N < 0 ∨ mpi_msb N > 2 * grp.pbits) :
    ecp_modp grp N = .error EcpError.genericError := by
  simp only [ecp_modp, hm]
  rw [if_pos h]
  rfl

/-- C3 counterexample: on the P-192 group (whose `modp` is `NULL`),
`ecp_modp` of the negative input `-1` takes the `mpi_mod_mpi` fallback and
succeeds with a reduced value instead of failing with `GenericError`. -/
theorem C3_counterexample :
    ecp_use_known_dp ecp_group_init POLARSSL_ECP_DP_SECP192R1 = Except.ok grp192 ∧
    grp192.modp = none ∧
    ecp_modp grp192 (-1) = Except.ok (grp192.P - 1) ∧
    ecp_modp grp192 (-1) ≠ Except.error EcpError.genericError := by
  refine ⟨rfl, rfl, by decide, by decide⟩

/-- C3 witness: the amended theorem applied to the P-521 group and `N = -1`. -/
theorem C3_witness :
    (ecp_group_read_string { ecp_group_init with modp := some ModpId.p521, pbits := 521 }
        secp521r1_params.1 secp521r1_params.2.1 secp521r1_params.2.2.1
        secp521r1_params.2.2.2.1 secp521r1_params.2.2.2.2).modp = some ModpId.p521 ∧
    ecp_modp (ecp_group_read_string
        { ecp_group_init with modp := some ModpId.p521, pbits := 521 }
        secp521r1_params.1 secp521r1_params.2.1 secp521r1_params.2.2.1
        secp521r1_params.2.2.2.1 secp521r1_params.2.2.2.2) (-1)
      = .error EcpError.genericError :=
  ⟨rfl, C3_modp_reject rfl (Or.inl (by decide))⟩

/-- C4: for `0 ≤ N < 2^(2·521)`, the P-521 quasi-reduction replaces `N` by
`H + L` with `N = H·2^521 + L`, `L` the low 521 bits, and the result lies
in `[0, 2^522)`. -/
theorem C4_p521_reduction {N : Int} (h0 : 0 ≤ N) (h1 : N < 2 ^ (2 * 521)) :
    ecp_mod_p521 N = N / 2 ^ 521 + N % 2 ^ 521 ∧
    0 ≤ ecp_mod_p521 N ∧ ecp_mod_p521 N < 2 ^ 522 := by
  refine ⟨ecp_mod_p521_spec h0, ecp_mod_p521_nonneg N, ?_⟩
  rw [ecp_mod_p521_spec h0]
  have hH : N / 2 ^ 521 < 2 ^ 521 := by
    have h2 : N < 2 ^ 521 * 2 ^ 521 := by
      calc N < 2 ^ (2 * 521) := h1
        _ = 2 ^ 521 * 2 ^ 521 := by ring
    have hq := Int.ediv_add_emod N (2 ^ 521)
    have hr : 0 ≤ N % 2 ^ 521 := Int.emod_nonneg _ (by positivity)
    have hc : (0:Int) < 2 ^ 521 := by positivity
    have h3 : 2 ^ 521 * (N / 2 ^ 521) < 2 ^ 521 * 2 ^ 521 := by linarith
    exact (mul_lt_mul_left hc).mp h3
  have hL : N % 2 ^ 521 < 2 ^ 521 := Int.emod_lt_of_pos _ (by positivity)
  have h4 : (2:Int) ^ 522 = 2 ^ 521 + 2 ^ 521 := by ring
  linarith

set_option maxRecDepth 8000 in
/-- C4 witness: the theorem applied at `N = 2^1000 + 12345`. -/
theorem C4_witness :
    ecp_mod_p521 (2 ^ 1000 + 12345) =
      (2 ^ 1000 + 12345) / 2 ^ 521 + (2 ^ 1000 + 12345) % 2 ^ 521 ∧
    0 ≤ ecp_mod_p521 (2 ^ 1000 + 12345) ∧
    ecp_mod_p521 (2 ^ 1000 + 12345) < 2 ^ 522 :=
  C4_p521_reduction (by positivity) (by norm_num)

theorem except_pure_eq_ok {ε α : Type} (a : α) : (pure a : Except ε α) = Except.ok a := rfl

theorem except_ok_bind {ε α β : Type} (a : α) (f : α → Except ε β) :
    (Except.ok a : Except ε α) >>= f = f a := rfl

/-- C9: `ecp_use_known_dp` assigns `modp` and `pbits` only in the
`SECP521R1` case; for the four other known identifiers the two fields are
left unchanged, so a group configured for P-521 and then reconfigured for
another known curve keeps the P-521 fast reduction and `pbits = 521`. -/
theorem C9_use_known_dp_frame (grp : EcpGroup) (idx : Nat)
    (hidx : idx = POLARSSL_ECP_DP_SECP192R1 ∨ idx = POLARSSL_ECP_DP_SECP224R1 ∨
      idx = POLARSSL_ECP_DP_SECP256R1 ∨ idx = POLARSSL_ECP_DP_SECP384R1) :
    (∀ g', ecp_use_known_dp grp idx = .ok g' →
      g'.modp = grp.modp ∧ g'.pbits = grp.pbits) ∧
    (∀ g5 g', ecp_use_known_dp grp POLARSSL_ECP_DP_SECP521R1 = .ok g5 →
      ecp_use_known_dp g5 idx = .ok g' →
      g'.modp = some ModpId.p521 ∧ g'.pbits = 521) := by
  have key : ∀ g g', ecp_use_known_dp g idx = .ok g' →
      g'.modp = g.modp ∧ g'.pbits = g.pbits := by
    intro g g' h
    rcases hidx with h1 | h1 | h1 | h1 <;> subst h1 <;>
      simp only [ecp_use_known_dp, POLARSSL_ECP_DP_SECP192R1,
        POLARSSL_ECP_DP_SECP224R1, POLARSSL_ECP_DP_SECP256R1,
        POLARSSL_ECP_DP_SECP384R1, POLARSSL_ECP_DP_SECP521R1,
        ecp_group_read_string, reduceIte, Nat.reduceEqDiff,
        except_pure_eq_ok, Except.ok.injEq] at h <;>
      subst h <;> exact ⟨rfl, rfl⟩
  refine ⟨key grp, ?_⟩
  intro g5 g' h5 h
  have h5' : g5.modp = some ModpId.p521 ∧ g5.pbits = 521 := by
    simp only [ecp_use_known_dp, POLARSSL_ECP_DP_SECP192R1,
      POLARSSL_ECP_DP_SECP224R1, POLARSSL_ECP_DP_SECP256R1,
      POLARSSL_ECP_DP_SECP384R1, POLARSSL_ECP_DP_SECP521R1,
      ecp_group_read_string, reduceIte, Nat.reduceEqDiff,
      except_pure_eq_ok, Except.ok.injEq] at h5
    subst h5
    exact ⟨rfl, rfl⟩
  obtain ⟨hm, hb⟩ := key g5 g' h
  rw [hm, hb, h5'.1, h5'.2]
  exact ⟨rfl, rfl⟩

/-- C9 witness: the theorem applied to the freshly initialised group at
`SECP192R1`, with the concrete outputs of both reconfiguration steps. -/
theorem C9_witness :
    ((ecp_use_known_dp ecp_group_init POLARSSL_ECP_DP_SECP192R1 = .ok grp192 →
        grp192.modp = ecp_group_init.modp ∧
        grp192.pbits = ecp_group_init.pbits) ∧
      grp192.modp = ecp_group_init.modp ∧ grp192.pbits = ecp_group_init.pbits) ∧
    (∀ g5 g', ecp_use_known_dp ecp_group_init POLARSSL_ECP_DP_SECP521R1 = .ok g5 →
      ecp_use_known_dp g5 POLARSSL_ECP_DP_SECP192R1 = .ok g' →
      g'.modp = some ModpId.p521 ∧ g'.pbits = 521) := by
  have h := C9_use_known_dp_frame ecp_group_init POLARSSL_ECP_DP_SECP192R1
    (Or.inl rfl)
  exact ⟨⟨h.1 grp192, h.1 grp192 rfl⟩, h.2⟩

theorem except_error_bind {ε α β : Type} (e : ε) (f : α → Except ε β) :
    (Except.error e : Except ε α) >>= f = Except.error e := rfl

theorem emod_mul_emod_left (a b p : Int) : a % p * b % p = a * b % p := by
  rw [Int.mul_emod, Int.emod_emod_of_dvd _ dvd_rfl, ← Int.mul_emod]

theorem emod_mul_emod_right (a b p : Int) : a * (b % p) % p = a * b % p := by
  rw [Int.mul_emod, Int.emod_emod_of_dvd _ dvd_rfl, ← Int.mul_emod]

theorem emod_sub_emod_left (a b p : Int) : (a % p - b) % p = (a - b) % p := by
  rw [Int.sub_emod, Int.emod_emod_of_dvd _ dvd_rfl, ← Int.sub_emod]

theorem emod_sub_emod_right (a b p : Int) : (a - b % p) % p = (a - b) % p := by
  rw [Int.sub_emod, Int.emod_emod_of_dvd _ dvd_rfl, ← Int.sub_emod]

/-- `MOD_MUL` after `mpi_mul_mpi` on two reduced values. -/
theorem modp_mul_ok {grp : EcpGroup} (hv : ValidGroup grp) {a b : Int}
    (ha : 0 ≤ a) (ha' : a < grp.P) (hb : 0 ≤ b) (hb' : b < grp.P) :
    ecp_modp grp (a * b) = .ok (a * b % grp.P) :=
  ecp_modp_ok hv (mul_nonneg ha hb) (mul_lt_mul'' ha' hb' ha hb)

theorem mpi_shift_r_nonneg {v : Int} (h : 0 ≤ v) (c : Nat) :
    mpi_shift_r v c = v / 2 ^ c := by
  unfold mpi_shift_r
  rcases lt_or_eq_of_le h with h' | h'
  · rw [Int.sign_eq_one_of_pos h', one_mul, Int.natCast_ediv]
    show ((v.natAbs : Int)) / ((2 ^ c : Nat) : Int) = _
    rw [Int.natAbs_of_nonneg h]
    norm_cast
  · rw [← h']; simp

theorem mpi_get_bit_zero_eq {v : Int} (h : 0 ≤ v) :
    (mpi_get_bit v 0 = 1) = (v % 2 = 1) := by
  unfold mpi_get_bit
  rw [pow_zero, Nat.div_one]
  have h1 : v % 2 = ((v.natAbs % 2 : Nat) : Int) := by
    rw [Int.ofNat_emod, Int.natAbs_of_nonneg h]
    rfl
  apply propext
  constructor
  · intro h2
    rw [h1]
    exact_mod_cast h2
  · intro h2
    rw [h1] at h2
    exact_mod_cast h2

/-- `MOD_SUB` after subtracting a non-negative value from one below `p`. -/
theorem mod_sub_fix_sub_emod {p a b : Int} (hp : 0 < p) (ha : a < p) (hb : 0 ≤ b) :
    mod_sub_fix p (a - b) = (a - b) % p :=
  mod_sub_fix_eq_emod hp (by omega)

/-- `MOD_ADD` after adding two non-negative values. -/
theorem mod_add_fix_add_nonneg {p a b : Int} (hp : 0 < p) (ha : 0 ≤ a) (hb : 0 ≤ b) :
    mod_add_fix p (a + b) = (a + b) % p :=
  mod_add_fix_eq_emod hp (by omega)

/-- `MOD_ADD` after `mpi_mul_int` / `mpi_shift_l` on a reduced value. -/
theorem mod_add_fix_mul_nonneg {p a c : Int} (hp : 0 < p) (ha : 0 ≤ a) (hc : 0 ≤ c) :
    mod_add_fix p (a * c) = (a * c) % p :=
  mod_add_fix_eq_emod hp (mul_nonneg ha hc)

/-- The even-making halving step of `ecp_double_jac`, rewritten to integer
division by two. -/
theorem half_step_eq {p v : Int} (h0 : 0 ≤ v) (hp : 0 ≤ p) :
    mpi_shift_r (if v % 2 = 1 then v + p else v) 1 =
      (if v % 2 = 1 then v + p else v) / 2 := by
  rw [mpi_shift_r_nonneg (by split <;> omega) 1, pow_one]

theorem half_nonneg {p v : Int} (hp : 0 < p) (h0 : 0 ≤ v) :
    0 ≤ (if v % 2 = 1 then v + p else v) / 2 :=
  Int.ediv_nonneg (by split <;> omega) (by omega)

/-- Unfolding of `ecp_double_jac` in the non-zero case: every intermediate
is the least non-negative residue of the corresponding GECC 3.21
expression, and the `Y/2` step adds `p` first when `Y` is odd. -/
theorem ecp_double_jac_eq {grp : EcpGroup} (hv : ValidGroup grp)
    {P : EcpPtjac} (hZ : ¬ P.Z = 0) (hrP : inRangeJ grp P) :
    ecp_double_jac grp P =
      .ok (let t1a := P.Z * P.Z % grp.P
           let t2a := (P.X - t1a) % grp.P
           let t1b := (P.X + t1a) % grp.P
           let t2c := t2a * t1b % grp.P * 3 % grp.P
           let y1 := P.Y * 2 % grp.P
           let z := y1 * P.Z % grp.P
           let y2 := y1 * y1 % grp.P
           let t3 := y2 * P.X % grp.P
           let y4 := y2 * y2 % grp.P
           let yh := (if y4 % 2 = 1 then y4 + grp.P else y4) / 2
           let x1 := t2c * t2c % grp.P
           let x2 := (x1 - t3 * 2 % grp.P) % grp.P
           let y := ((t3 - x2) % grp.P * t2c % grp.P - yh) % grp.P
           ⟨x2, y, z⟩) := by
  have hp : (0:Int) < grp.P := by have := hv.1; omega
  obtain ⟨hx0, hx1, hy0, hy1, hz0, hz1⟩ := hrP
  have hb : ∀ a : Int, 0 ≤ a % grp.P := fun a => Int.emod_nonneg a hp.ne'
  have hb' : ∀ a : Int, a % grp.P < grp.P := fun a => Int.emod_lt_of_pos a hp
  unfold ecp_double_jac
  rw [if_neg hZ]
  simp only [mpi_shift_l, pow_one]
  rw [modp_mul_ok hv hz0 hz1 hz0 hz1, except_ok_bind]
  rw [mod_sub_fix_sub_emod hp hx1 (hb _)]
  rw [mod_add_fix_add_nonneg hp hx0 (hb _)]
  rw [modp_mul_ok hv (hb _) (hb' _) (hb _) (hb' _), except_ok_bind]
  rw [mod_add_fix_mul_nonneg hp (hb _) (by norm_num)]
  rw [mod_add_fix_mul_nonneg hp hy0 (by norm_num)]
  rw [modp_mul_ok hv (hb _) (hb' _) hz0 hz1, except_ok_bind]
  rw [modp_mul_ok hv (hb _) (hb' _) (hb _) (hb' _), except_ok_bind]
  rw [modp_mul_ok hv (hb _) (hb' _) hx0 hx1, except_ok_bind]
  rw [modp_mul_ok hv (hb _) (hb' _) (hb _) (hb' _), except_ok_bind]
  simp only [mpi_get_bit_zero_eq (hb _)]
  rw [half_step_eq (hb _) (by omega)]
  rw [modp_mul_ok hv (hb _) (hb' _) (hb _) (hb' _), except_ok_bind]
  rw [mod_add_fix_mul_nonneg hp (hb _) (by norm_num)]
  rw [mod_sub_fix_sub_emod hp (hb' _) (hb _)]
  rw [mod_sub_fix_sub_emod hp (hb' _) (hb _)]
  rw [modp_mul_ok hv (hb _) (hb' _) (hb _) (hb' _), except_ok_bind]
  rw [mod_sub_fix_sub_emod hp (hb' _) (half_nonneg hp (hb _))]
  rfl

/-- Unfolding of `ecp_add_mixed` in the non-degenerate entry case: the two
comparisons are made on the reduced values
`T1 = (Q.X·Z² − P.X) mod p` and `T2 = (Q.Y·Z³ − P.Y) mod p`, and the
general case runs the straight-line tail on them. -/
theorem ecp_add_mixed_eq {grp : EcpGroup} (hv : ValidGroup grp)
    {P : EcpPtjac} {Q : EcpPoint} (hZ : ¬ P.Z = 0) (hQ : Q.is_zero = false)
    (hrP : inRangeJ grp P) (hrQ : inRangeA grp Q) :
    ecp_add_mixed grp P Q =
      if (Q.X * P.Z ^ 2 - P.X) % grp.P = 0 then
        if (Q.Y * P.Z ^ 3 - P.Y) % grp.P = 0 then ecp_double_jac grp P
        else Except.ok ecp_ptjac_set_zero
      else ecp_add_mixed_tail grp P ((Q.X * P.Z ^ 2 - P.X) % grp.P)
        ((Q.Y * P.Z ^ 3 - P.Y) % grp.P) := by
  have hp : (0:Int) < grp.P := by have := hv.1; omega
  obtain ⟨hx0, hx1, hy0, hy1, hz0, hz1⟩ := hrP
  obtain ⟨hqx0, hqx1, hqy0, hqy1⟩ := hrQ
  have hb : ∀ a : Int, 0 ≤ a % grp.P := fun a => Int.emod_nonneg a hp.ne'
  have hb' : ∀ a : Int, a % grp.P < grp.P := fun a => Int.emod_lt_of_pos a hp
  unfold ecp_add_mixed
  rw [if_neg hZ, if_neg (by simp [hQ])]
  rw [modp_mul_ok hv hz0 hz1 hz0 hz1, except_ok_bind,
    modp_mul_ok hv (hb _) (hb' _) hz0 hz1, except_ok_bind,
    modp_mul_ok hv (hb _) (hb' _) hqx0 hqx1, except_ok_bind,
    modp_mul_ok hv (hb _) (hb' _) hqy0 hqy1, except_ok_bind,
    mod_sub_fix_eq_emod hp (by have := hb' (P.Z * P.Z % grp.P * Q.X); omega),
    mod_sub_fix_eq_emod hp
      (by have := hb' (P.Z * P.Z % grp.P * P.Z % grp.P * Q.Y); omega),
    emod_mul_emod_left (P.Z * P.Z) Q.X grp.P,
    emod_sub_emod_left (P.Z * P.Z * Q.X) P.X grp.P,
    emod_mul_emod_left (P.Z * P.Z) P.Z grp.P,
    emod_mul_emod_left (P.Z * P.Z * P.Z) Q.Y grp.P,
    emod_sub_emod_left (P.Z * P.Z * P.Z * Q.Y) P.Y grp.P,
    show P.Z * P.Z * Q.X - P.X = Q.X * P.Z ^ 2 - P.X from by ring,
    show P.Z * P.Z * P.Z * Q.Y - P.Y = Q.Y * P.Z ^ 3 - P.Y from by ring]
  rfl

/-- Unfolding of the general-case tail of `ecp_add_mixed` on reduced
inputs: every intermediate is the least non-negative residue of the
corresponding GECC 3.22 expression. -/
theorem ecp_add_mixed_tail_eq {grp : EcpGroup} (hv : ValidGroup grp)
    {P : EcpPtjac} (hrP : inRangeJ grp P) {t1 t2 : Int}
    (h10 : 0 ≤ t1) (h11 : t1 < grp.P) (h20 : 0 ≤ t2) (h21 : t2 < grp.P) :
    ecp_add_mixed_tail grp P t1 t2 =
      .ok (let z := P.Z * t1 % grp.P
           let t3 := t1 * t1 % grp.P
           let t4 := t3 * t1 % grp.P
           let t3b := t3 * P.X % grp.P
           let t1d := t3b * 2 % grp.P
           let x1 := t2 * t2 % grp.P
           let x2 := (x1 - t1d) % grp.P
           let x3 := (x2 - t4) % grp.P
           let t3c := (t3b - x3) % grp.P
           let t3d := t3c * t2 % grp.P
           let t4b := t4 * P.Y % grp.P
           let y := (t3d - t4b) % grp.P
           ⟨x3, y, z⟩) := by
  have hp : (0:Int) < grp.P := by have := hv.1; omega
  obtain ⟨hx0, hx1, hy0, hy1, hz0, hz1⟩ := hrP
  have hb : ∀ a : Int, 0 ≤ a % grp.P := fun a => Int.emod_nonneg a hp.ne'
  have hb' : ∀ a : Int, a % grp.P < grp.P := fun a => Int.emod_lt_of_pos a hp
  unfold ecp_add_mixed_tail
  rw [modp_mul_ok hv hz0 hz1 h10 h11, except_ok_bind]
  rw [ecp_modp_ok hv (mul_nonneg h10 h10) (mul_lt_mul'' h11 h11 h10 h10),
    except_ok_bind]
  rw [modp_mul_ok hv (hb _) (hb' _) h10 h11, except_ok_bind]
  rw [modp_mul_ok hv (hb _) (hb' _) hx0 hx1, except_ok_bind]
  rw [mod_add_fix_mul_nonneg hp (hb _) (by norm_num)]
  rw [ecp_modp_ok hv (mul_nonneg h20 h20) (mul_lt_mul'' h21 h21 h20 h20),
    except_ok_bind]
  simp only [mod_sub_fix_sub_emod hp, hb, hb']
  rw [modp_mul_ok hv (hb _) (hb' _) h20 h21, except_ok_bind]
  rw [modp_mul_ok hv (hb _) (hb' _) hy0 hy1, except_ok_bind]
  simp only [mod_sub_fix_sub_emod hp, hb, hb']
  rfl

/-- Unfolding of `ecp_jac_to_aff` in the non-zero, invertible case. -/
theorem ecp_jac_to_aff_eq {grp : EcpGroup} (hv : ValidGroup grp)
    {J : EcpPtjac} (hZ : ¬ J.Z = 0) (hgcd : Int.gcd J.Z grp.P = 1)
    (hr : inRangeJ grp J) :
    ∃ w, mpi_inv_mod J.Z grp.P = .ok w ∧ 0 ≤ w ∧ w < grp.P ∧
      J.Z * w % grp.P = 1 ∧
      ecp_jac_to_aff grp J =
        .ok ⟨false, J.X * (w * w % grp.P) % grp.P,
          J.Y * (w * w % grp.P) % grp.P * w % grp.P⟩ := by
  have hp : (0:Int) < grp.P := by have := hv.1; omega
  obtain ⟨hx0, hx1, hy0, hy1, hz0, hz1⟩ := hr
  have hb : ∀ a : Int, 0 ≤ a % grp.P := fun a => Int.emod_nonneg a hp.ne'
  have hb' : ∀ a : Int, a % grp.P < grp.P := fun a => Int.emod_lt_of_pos a hp
  obtain ⟨w, hw, hw0, hw1, hinv⟩ := mpi_inv_mod_ok hv.1 hgcd
  refine ⟨w, hw, hw0, hw1, hinv, ?_⟩
  unfold ecp_jac_to_aff
  rw [if_neg hZ, hw, except_ok_bind]
  rw [modp_mul_ok hv hw0 hw1 hw0 hw1, except_ok_bind]
  rw [modp_mul_ok hv hx0 hx1 (hb _) (hb' _), except_ok_bind]
  rw [modp_mul_ok hv hy0 hy1 (hb _) (hb' _), except_ok_bind]
  rw [modp_mul_ok hv (hb _) (hb' _) hw0 hw1, except_ok_bind]
  rfl

theorem mod_sub_fix_res_nonneg {P N : Int} (hP : 0 < P) : 0 ≤ mod_sub_fix P N := by
  rw [mod_sub_fix]
  split
  · exact mod_sub_fix_res_nonneg hP
  · omega
termination_by (-N).toNat
decreasing_by omega

/-- A successful `ecp_modp` always lands in `[0, P)`. -/
theorem ecp_modp_range {grp : EcpGroup} (hP : 0 < grp.P) {N v : Int}
    (h : ecp_modp grp N = .ok v) : 0 ≤ v ∧ v < grp.P := by
  cases hm : grp.modp with
  | none =>
    simp only [ecp_modp, hm, mpi_mod_mpi] at h
    rw [if_neg (by omega)] at h
    rw [except_pure_eq_ok] at h
    cases h
    exact ⟨Int.emod_nonneg _ hP.ne', Int.emod_lt_of_pos _ hP⟩
  | some m =>
    simp only [ecp_modp, hm] at h
    by_cases hg : N < 0 ∨ mpi_msb N > 2 * grp.pbits
    · rw [if_pos hg] at h
      cases h
    · rw [if_neg hg] at h
      cases m
      simp only [modp_run, pure_bind, except_pure_eq_ok] at h
      cases h
      exact ⟨mod_add_fix_nonneg (mod_sub_fix_res_nonneg hP), mod_add_fix_lt hP⟩

/-- A successful `ecp_jac_to_aff` produces either the zero point or a
point with both coordinates in `[0, P)`. -/
theorem ecp_jac_to_aff_range {grp : EcpGroup} (hP : 0 < grp.P) {J : EcpPtjac}
    {R : EcpPoint} (h : ecp_jac_to_aff grp J = .ok R) :
    R = ⟨true, 0, 0⟩ ∨ (R.is_zero = false ∧ inRangeA grp R) := by
  unfold ecp_jac_to_aff at h
  by_cases hz : J.Z = 0
  · rw [if_pos hz, except_pure_eq_ok] at h
    cases h
    left
    rfl
  · rw [if_neg hz] at h
    cases hi : mpi_inv_mod J.Z grp.P with
    | error e =>
      rw [hi, except_error_bind] at h
      cases h
    | ok w =>
      rw [hi, except_ok_bind] at h
      cases h1 : ecp_modp grp (w * w) with
      | error e =>
        rw [h1, except_error_bind] at h
        cases h
      | ok zz =>
        rw [h1, except_ok_bind] at h
        cases h2 : ecp_modp grp (J.X * zz) with
        | error e =>
          rw [h2, except_error_bind] at h
          cases h
        | ok xv =>
          rw [h2, except_ok_bind] at h
          cases h3 : ecp_modp grp (J.Y * zz) with
          | error e =>
            rw [h3, except_error_bind] at h
            cases h
          | ok y1 =>
            rw [h3, except_ok_bind] at h
            cases h4 : ecp_modp grp (y1 * w) with
            | error e =>
              rw [h4, except_error_bind] at h
              cases h
            | ok yv =>
              rw [h4, except_ok_bind, except_pure_eq_ok] at h
              cases h
              right
              refine ⟨rfl, ?_⟩
              obtain ⟨hx0, hx1⟩ := ecp_modp_range hP h2
              obtain ⟨hy0, hy1⟩ := ecp_modp_range hP h4
              exact ⟨hx0, hx1, hy0, hy1⟩

theorem inRangeJ_zero {grp : EcpGroup} (h : 1 < grp.P) :
    inRangeJ grp ecp_ptjac_set_zero := by
  unfold inRangeJ ecp_ptjac_set_zero
  dsimp only
  refine ⟨by norm_num, by omega, by norm_num, by omega, le_refl 0, by omega⟩

/-- `ecp_double_jac` on a valid group and an in-range point succeeds and
keeps the output in range. -/
theorem ecp_double_jac_range {grp : EcpGroup} (hv : ValidGroup grp)
    {P : EcpPtjac} (hrP : inRangeJ grp P) :
    ∃ J', ecp_double_jac grp P = .ok J' ∧ inRangeJ grp J' := by
  have hp : (0:Int) < grp.P := by have := hv.1; omega
  have hb : ∀ a : Int, 0 ≤ a % grp.P := fun a => Int.emod_nonneg a hp.ne'
  have hb' : ∀ a : Int, a % grp.P < grp.P := fun a => Int.emod_lt_of_pos a hp
  by_cases hz : P.Z = 0
  · refine ⟨ecp_ptjac_set_zero, ?_, inRangeJ_zero hv.1⟩
    unfold ecp_double_jac
    rw [if_pos hz]
    rfl
  · rw [ecp_double_jac_eq hv hz hrP]
    refine ⟨_, rfl, ⟨hb _, hb' _, hb _, hb' _, hb _, hb' _⟩⟩

/-- `ecp_add_mixed` on a valid group and in-range points succeeds and
keeps the output in range. -/
theorem ecp_add_mixed_range {grp : EcpGroup} (hv : ValidGroup grp)
    {P : EcpPtjac} {Q : EcpPoint} (hrP : inRangeJ grp P)
    (hrQ : Q.is_zero = false → inRangeA grp Q) :
    ∃ J', ecp_add_mixed grp P Q = .ok J' ∧ inRangeJ grp J' := by
  have hp : (0:Int) < grp.P := by have := hv.1; omega
  have h1P : (1:Int) < grp.P := hv.1
  have hb : ∀ a : Int, 0 ≤ a % grp.P := fun a => Int.emod_nonneg a hp.ne'
  have hb' : ∀ a : Int, a % grp.P < grp.P := fun a => Int.emod_lt_of_pos a hp
  by_cases hz : P.Z = 0
  · refine ⟨ecp_aff_to_jac Q, ?_, ?_⟩
    · unfold ecp_add_mixed
      rw [if_pos hz]
      rfl
    · unfold ecp_aff_to_jac
      by_cases hq : Q.is_zero
      · rw [if_pos hq]
        exact inRangeJ_zero h1P
      · rw [if_neg hq]
        obtain ⟨ha, hb1, hc, hd⟩ := hrQ (by simpa using hq)
        exact ⟨ha, hb1, hc, hd, by norm_num, by dsimp only; omega⟩
  · by_cases hq : Q.is_zero = true
    · refine ⟨P, ?_, hrP⟩
      unfold ecp_add_mixed
      rw [if_neg hz, if_pos (by simp [hq])]
      rfl
    · have hq' : Q.is_zero = false := by simpa using hq
      rw [ecp_add_mixed_eq hv hz hq' hrP (hrQ hq')]
      by_cases h1 : (Q.X * P.Z ^ 2 - P.X) % grp.P = 0
      · rw [if_pos h1]
        by_cases h2 : (Q.Y * P.Z ^ 3 - P.Y) % grp.P = 0
        · rw [if_pos h2]
          exact ecp_double_jac_range hv hrP
        · rw [if_neg h2]
          exact ⟨ecp_ptjac_set_zero, rfl, inRangeJ_zero h1P⟩
      · rw [if_neg h1]
        rw [ecp_add_mixed_tail_eq hv hrP (hb _) (hb' _) (hb _) (hb' _)]
        exact ⟨_, rfl, hb _, hb' _, hb _, hb' _, hb _, hb' _⟩

/-- The traced ladder loop computes exactly the result of `ecp_mul_loop`
paired with a trace that depends only on the iteration count. -/
theorem ecp_mul_loop_traced_eq (grp : EcpGroup) (m : Int) (P : EcpPoint) :
    ∀ (pos : Nat) (q0 : EcpPtjac),
      ecp_mul_loop_traced grp m P pos q0 =
        Except.map (fun q => (q, ladderOps (pos + 1))) (ecp_mul_loop grp m P pos q0)
  | 0, q0 => by
    simp only [ecp_mul_loop_traced, ecp_mul_loop]
    cases hd : ecp_double_jac grp q0 with
    | error e => rfl
    | ok qd =>
      simp only [except_ok_bind]
      cases ha : ecp_add_mixed grp qd P with
      | error e => rfl
      | ok q1 =>
        simp [ha, except_ok_bind, Except.map, ladderOps]
  | pos + 1, q0 => by
    simp only [ecp_mul_loop_traced, ecp_mul_loop]
    cases hd : ecp_double_jac grp q0 with
    | error e => rfl
    | ok qd =>
      simp only [except_ok_bind]
      cases ha : ecp_add_mixed grp qd P with
      | error e => rfl
      | ok q1 =>
        simp only [ha, except_ok_bind]
        rw [ecp_mul_loop_traced_eq grp m P pos]
        cases hl : ecp_mul_loop grp m P pos
            (if mpi_get_bit m (pos + 1) = 1 then q1 else qd) with
        | error e => rfl
        | ok q =>
          simp [hl, Except.map, except_ok_bind, ladderOps, List.replicate_succ]

/-- C2: the degenerate-case dispatch of `ecp_add_mixed`: `P.Z = 0` yields
`Q` lifted to Jacobian; `Q.is_zero` yields a copy of `P`; with
`T1 = Q.X·Z² − P.X` and `T2 = Q.Y·Z³ − P.Y` (reduced mod `p`), `T1 = 0`
and `T2 = 0` dispatches to the Jacobian doubling of `P`, and `T1 = 0`,
`T2 ≠ 0` yields the Jacobian zero point. -/
theorem C2_add_mixed_degenerate (grp : EcpGroup) (P : EcpPtjac) (Q : EcpPoint)
    (hv : ValidGroup grp) (hrP : inRangeJ grp P) (hrQ : inRangeA grp Q) :
    (P.Z = 0 → ecp_add_mixed grp P Q = .ok (ecp_aff_to_jac Q)) ∧
    (P.Z ≠ 0 → Q.is_zero = true → ecp_add_mixed grp P Q = .ok P) ∧
    (P.Z ≠ 0 → Q.is_zero = false →
      (Q.X * P.Z ^ 2 - P.X) % grp.P = 0 → (Q.Y * P.Z ^ 3 - P.Y) % grp.P = 0 →
      ecp_add_mixed grp P Q = ecp_double_jac grp P) ∧
    (P.Z ≠ 0 → Q.is_zero = false →
      (Q.X * P.Z ^ 2 - P.X) % grp.P = 0 → (Q.Y * P.Z ^ 3 - P.Y) % grp.P ≠ 0 →
      ecp_add_mixed grp P Q = .ok ecp_ptjac_set_zero) := by
  refine ⟨?_, ?_, ?_, ?_⟩
  · intro hZ
    unfold ecp_add_mixed
    rw [if_pos hZ]
    rfl
  · intro hZ hQ
    unfold ecp_add_mixed
    rw [if_neg hZ, if_pos (by simp [hQ])]
    rfl
  · intro hZ hQ h1 h2
    rw [ecp_add_mixed_eq hv hZ hQ hrP hrQ, if_pos h1, if_pos h2]
  · intro hZ hQ h1 h2
    rw [ecp_add_mixed_eq hv hZ hQ hrP hrQ, if_pos h1, if_neg h2]

/-- C2 witness: the theorem applied on the curve `y² = x³ − 3x + 3` over
`GF(7)` with `P = (1, 1, 1)` and `Q = (1, 1)`. -/
theorem C2_witness :
    ((⟨1, 1, 1⟩ : EcpPtjac).Z = 0 →
      ecp_add_mixed ⟨7, 3, ⟨false, 1, 1⟩, 9, none, 0⟩ ⟨1, 1, 1⟩ ⟨false, 1, 1⟩ =
        .ok (ecp_aff_to_jac ⟨false, 1, 1⟩)) ∧
    ((⟨1, 1, 1⟩ : EcpPtjac).Z ≠ 0 → (⟨false, 1, 1⟩ : EcpPoint).is_zero = true →
      ecp_add_mixed ⟨7, 3, ⟨false, 1, 1⟩, 9, none, 0⟩ ⟨1, 1, 1⟩ ⟨false, 1, 1⟩ =
        .ok ⟨1, 1, 1⟩) ∧
    ((⟨1, 1, 1⟩ : EcpPtjac).Z ≠ 0 → (⟨false, 1, 1⟩ : EcpPoint).is_zero = false →
      ((⟨false, 1, 1⟩ : EcpPoint).X * (⟨1, 1, 1⟩ : EcpPtjac).Z ^ 2 -
          (⟨1, 1, 1⟩ : EcpPtjac).X) % (7:Int) = 0 →
      ((⟨false, 1, 1⟩ : EcpPoint).Y * (⟨1, 1, 1⟩ : EcpPtjac).Z ^ 3 -
          (⟨1, 1, 1⟩ : EcpPtjac).Y) % (7:Int) = 0 →
      ecp_add_mixed ⟨7, 3, ⟨false, 1, 1⟩, 9, none, 0⟩ ⟨1, 1, 1⟩ ⟨false, 1, 1⟩ =
        ecp_double_jac ⟨7, 3, ⟨false, 1, 1⟩, 9, none, 0⟩ ⟨1, 1, 1⟩) ∧
    ((⟨1, 1, 1⟩ : EcpPtjac).Z ≠ 0 → (⟨false, 1, 1⟩ : EcpPoint).is_zero = false →
      ((⟨false, 1, 1⟩ : EcpPoint).X * (⟨1, 1, 1⟩ : EcpPtjac).Z ^ 2 -
          (⟨1, 1, 1⟩ : EcpPtjac).X) % (7:Int) = 0 →
      ((⟨false, 1, 1⟩ : EcpPoint).Y * (⟨1, 1, 1⟩ : EcpPtjac).Z ^ 3 -
          (⟨1, 1, 1⟩ : EcpPtjac).Y) % (7:Int) ≠ 0 →
      ecp_add_mixed ⟨7, 3, ⟨false, 1, 1⟩, 9, none, 0⟩ ⟨1, 1, 1⟩ ⟨false, 1, 1⟩ =
        .ok ecp_ptjac_set_zero) :=
  C2_add_mixed_degenerate ⟨7, 3, ⟨false, 1, 1⟩, 9, none, 0⟩ ⟨1, 1, 1⟩ ⟨false, 1, 1⟩
    (by decide) (by decide) (by decide)

/-- C6: lifting an affine point to Jacobian coordinates and projecting
back yields exactly the original point; the zero point round-trips to the
zero point. -/
theorem C6_roundtrip (grp : EcpGroup) (pt : EcpPoint) (hv : ValidGroup grp) :
    (pt.is_zero = true →
      ecp_jac_to_aff grp (ecp_aff_to_jac pt) = .ok ⟨true, 0, 0⟩) ∧
    (pt.is_zero = false → inRangeA grp pt →
      ecp_jac_to_aff grp (ecp_aff_to_jac pt) = .ok pt) := by
  have h1P := hv.1
  constructor
  · intro hz
    unfold ecp_aff_to_jac
    rw [if_pos hz]
    unfold ecp_jac_to_aff
    rw [if_pos (by rfl)]
    rfl
  · intro hz hr
    have hJ : ecp_aff_to_jac pt = ⟨pt.X, pt.Y, 1⟩ := by
      unfold ecp_aff_to_jac
      rw [if_neg (by simp [hz])]
    rw [hJ]
    obtain ⟨hx0, hx1, hy0, hy1⟩ := hr
    have hgcd : Int.gcd (⟨pt.X, pt.Y, 1⟩ : EcpPtjac).Z grp.P = 1 := by
      show Int.gcd 1 grp.P = 1
      simp [Int.gcd]
    have hrj : inRangeJ grp ⟨pt.X, pt.Y, 1⟩ :=
      ⟨hx0, hx1, hy0, hy1, by norm_num, by dsimp only; omega⟩
    obtain ⟨w, hw, hw0, hw1, hinv, heq⟩ :=
      ecp_jac_to_aff_eq hv (by dsimp only; norm_num) hgcd hrj
    have hweq : w = 1 := by
      have h2 : (1:Int) * w % grp.P = 1 := hinv
      rw [one_mul, Int.emod_eq_of_lt hw0 hw1] at h2
      exact h2
    subst hweq
    rw [heq]
    have h11 : (1:Int) * 1 % grp.P = 1 := by
      rw [one_mul, Int.emod_eq_of_lt (by norm_num) (by omega)]
    have hX : pt.X * (1 * 1 % grp.P) % grp.P = pt.X := by
      rw [h11, mul_one, Int.emod_eq_of_lt hx0 hx1]
    have hY : pt.Y * (1 * 1 % grp.P) % grp.P * 1 % grp.P = pt.Y := by
      rw [h11, mul_one, mul_one, Int.emod_eq_of_lt hy0 hy1,
        Int.emod_eq_of_lt hy0 hy1]
    dsimp only
    rw [hX, hY]
    cases pt with
    | mk iz X Y =>
      cases iz
      · rfl
      · cases hz

/-- C6 witness: the theorem applied on the `GF(7)` test group at the
point `(2, 5)` and at the zero point. -/
theorem C6_witness :
    (((⟨false, 2, 5⟩ : EcpPoint).is_zero = true →
      ecp_jac_to_aff grp7 (ecp_aff_to_jac ⟨false, 2, 5⟩) = .ok ⟨true, 0, 0⟩) ∧
    ((⟨false, 2, 5⟩ : EcpPoint).is_zero = false → inRangeA grp7 ⟨false, 2, 5⟩ →
      ecp_jac_to_aff grp7 (ecp_aff_to_jac ⟨false, 2, 5⟩) = .ok ⟨false, 2, 5⟩)) ∧
    (((⟨true, 0, 0⟩ : EcpPoint).is_zero = true →
      ecp_jac_to_aff grp7 (ecp_aff_to_jac ⟨true, 0, 0⟩) = .ok ⟨true, 0, 0⟩)) :=
  ⟨C6_roundtrip grp7 ⟨false, 2, 5⟩ (by decide),
    (C6_roundtrip grp7 ⟨true, 0, 0⟩ (by decide)).1⟩

/-- C5: on a valid group, every successful public operation (`ecp_add`,
`ecp_mul`) returns either the zero point or a point with both coordinates
in `[0, p)`; internally, `ecp_double_jac` and `ecp_add_mixed` succeed on
in-range points and keep all three Jacobian coordinates in `[0, p)`. -/
theorem C5_reduction_range (grp : EcpGroup) (hv : ValidGroup grp) :
    (∀ P Q R, ecp_add grp P Q = .ok R →
      R = ⟨true, 0, 0⟩ ∨ (R.is_zero = false ∧ inRangeA grp R)) ∧
    (∀ m P R, ecp_mul grp m P = .ok R →
      R = ⟨true, 0, 0⟩ ∨ (R.is_zero = false ∧ inRangeA grp R)) ∧
    (∀ J, inRangeJ grp J →
      ∃ J', ecp_double_jac grp J = .ok J' ∧ inRangeJ grp J') ∧
    (∀ J Q, inRangeJ grp J → (Q.is_zero = false → inRangeA grp Q) →
      ∃ J', ecp_add_mixed grp J Q = .ok J' ∧ inRangeJ grp J') := by
  have hp : (0:Int) < grp.P := by have := hv.1; omega
  refine ⟨?_, ?_, fun J h => ecp_double_jac_range hv h,
    fun J Q h h' => ecp_add_mixed_range hv h h'⟩
  · intro P Q R h
    unfold ecp_add at h
    replace h : (do
        let J ← ecp_add_mixed grp (ecp_aff_to_jac P) Q
        ecp_jac_to_aff grp J) = Except.ok R := h
    cases ha : ecp_add_mixed grp (ecp_aff_to_jac P) Q with
    | error e =>
      rw [ha, except_error_bind] at h
      cases h
    | ok J' =>
      rw [ha, except_ok_bind] at h
      exact ecp_jac_to_aff_range hp h
  · intro m P R h
    unfold ecp_mul at h
    by_cases hm : m = 0
    · rw [if_pos hm, except_pure_eq_ok] at h
      cases h
      left
      rfl
    · rw [if_neg hm] at h
      cases hl : ecp_mul_loop grp m P (mpi_msb m - 1) ecp_ptjac_set_zero with
      | error e =>
        rw [hl, except_error_bind] at h
        cases h
      | ok q =>
        rw [hl, except_ok_bind] at h
        exact ecp_jac_to_aff_range hp h

/-- C5 witness: the theorem applied to the `GF(7)` test group. -/
theorem C5_witness :
    (∀ P Q R, ecp_add grp7 P Q = .ok R →
      R = ⟨true, 0, 0⟩ ∨ (R.is_zero = false ∧ inRangeA grp7 R)) ∧
    (∀ m P R, ecp_mul grp7 m P = .ok R →
      R = ⟨true, 0, 0⟩ ∨ (R.is_zero = false ∧ inRangeA grp7 R)) ∧
    (∀ J, inRangeJ grp7 J →
      ∃ J', ecp_double_jac grp7 J = .ok J' ∧ inRangeJ grp7 J') ∧
    (∀ J Q, inRangeJ grp7 J → (Q.is_zero = false → inRangeA grp7 Q) →
      ∃ J', ecp_add_mixed grp7 J Q = .ok J' ∧ inRangeJ grp7 J') :=
  C5_reduction_range grp7 (by decide)

/-- C7: each ladder iteration performs exactly one doubling, one mixed
addition and one copy, independent of the scalar bit: the traced run of
`ecp_mul` equals the plain run paired with the fixed trace `ecp_mul_ops m`;
for `m ≥ 1` that trace is `mpi_msb m` repetitions of
`[double, addMixed, copy]`; and scalars of equal bit length produce
identical operation sequences. -/
theorem C7_uniform_execution (grp : EcpGroup) (P : EcpPoint) (m k1 k2 : Int)
    (hmsb : mpi_msb k1 = mpi_msb k2) :
    ecp_mul_traced grp m P =
      Except.map (fun R => (R, ecp_mul_ops m)) (ecp_mul grp m P) ∧
    (1 ≤ m → ecp_mul_ops m =
      (List.replicate (mpi_msb m)
        [LadderOp.double, LadderOp.addMixed, LadderOp.copy]).flatten) ∧
    ecp_mul_ops k1 = ecp_mul_ops k2 := by
  refine ⟨?_, ?_, ?_⟩
  · simp only [ecp_mul_traced, ecp_mul]
    by_cases hm : m = 0
    · simp [hm, ecp_mul_ops, Except.map, except_pure_eq_ok, except_ok_bind]
    · rw [if_neg hm, if_neg hm, ecp_mul_loop_traced_eq grp m P]
      cases hl : ecp_mul_loop grp m P (mpi_msb m - 1) ecp_ptjac_set_zero with
      | error e => rfl
      | ok q =>
        simp only [Except.map, except_ok_bind]
        cases hj : ecp_jac_to_aff grp q with
        | error e => rfl
        | ok R =>
          have h1 : mpi_msb m - 1 + 1 = mpi_msb m := by
            simp [mpi_msb, hm]
          simp [except_ok_bind, except_pure_eq_ok, ecp_mul_ops, hm, h1]
  · intro hm
    simp [ecp_mul_ops, ladderOps, show m ≠ 0 by omega]
  · have hk : ∀ k : Int, mpi_msb k = 0 ↔ k = 0 := by
      intro k
      unfold mpi_msb
      split
      · rename_i h; simp [h]
      · rename_i h; simp [h]
    have hz : k1 = 0 ↔ k2 = 0 := by
      rw [← hk k1, ← hk k2, hmsb]
    by_cases h1 : k1 = 0
    · simp [ecp_mul_ops, h1, hz.mp h1]
    · have h2 : k2 ≠ 0 := fun hc => h1 (hz.mpr hc)
      simp [ecp_mul_ops, h1, h2, hmsb]

/-- C7 witness: the theorem applied to the P-192 group with `m = 5` and
the equal-bit-length scalars `5` and `7`. -/
theorem C7_witness :
    (ecp_mul_traced grp192 5 grp192.G =
      Except.map (fun R => (R, ecp_mul_ops 5)) (ecp_mul grp192 5 grp192.G) ∧
    (1 ≤ (5:Int) → ecp_mul_ops 5 =
      (List.replicate (mpi_msb 5)
        [LadderOp.double, LadderOp.addMixed, LadderOp.copy]).flatten) ∧
    ecp_mul_ops 5 = ecp_mul_ops 7) ∧ mpi_msb 5 = mpi_msb 7 :=
  ⟨C7_uniform_execution grp192 grp192.G 5 5 7 (by simp [mpi_msb, Nat.log2]),
    by simp [mpi_msb, Nat.log2]⟩

theorem GoodGroup.one_lt {grp : EcpGroup} {p : ℕ} (hg : GoodGroup grp p) : 1 < p := by
  have h1 := hg.valid.1
  have h2 := hg.hp
  by_contra h
  interval_cases p <;> omega

/-- An integer in `[0, p)` is zero exactly when its image in `GF(p)` is. -/
theorem intCast_eq_zero_iff {p : ℕ} {grp : EcpGroup} (hg : GoodGroup grp p)
    {a : Int} (h0 : 0 ≤ a) (h1 : a < grp.P) :
    ((a : ZMod p) = 0) ↔ a = 0 := by
  have h3 : (p:Int) = grp.P := hg.hp
  rw [ZMod.intCast_zmod_eq_zero_iff_dvd]
  constructor
  · intro hd
    rcases eq_or_lt_of_le h0 with h | h
    · omega
    · have h2 := Int.le_of_dvd h hd
      omega
  · intro h
    subst h
    exact dvd_zero _

/-- Two integers in `[0, p)` with the same image in `GF(p)` are equal. -/
theorem intCast_inj_of_range {p : ℕ} {grp : EcpGroup} (hg : GoodGroup grp p)
    {a b : Int} (ha0 : 0 ≤ a) (ha1 : a < grp.P) (hb0 : 0 ≤ b) (hb1 : b < grp.P)
    (h : (a : ZMod p) = (b : ZMod p)) : a = b := by
  have h3 : (p:Int) = grp.P := hg.hp
  have hd : ((a - b : Int) : ZMod p) = 0 := by
    push_cast
    rw [h]
    ring
  rw [ZMod.intCast_zmod_eq_zero_iff_dvd] at hd
  rcases hd with ⟨c, hc⟩
  rcases lt_trichotomy c 0 with h4 | h4 | h4
  · have h5 : (p:Int) * c ≤ (p:Int) * (-1) :=
      mul_le_mul_of_nonneg_left (by omega) (by omega)
    have h6 : (p:Int) * (-1) = -(p:Int) := by ring
    omega
  · rw [h4, mul_zero] at hc
    omega
  · have h5 : (p:Int) * 1 ≤ (p:Int) * c :=
      mul_le_mul_of_nonneg_left (by omega) (by omega)
    have h6 : (p:Int) * 1 = (p:Int) := by ring
    omega

/-- Reduction mod `P` disappears under the cast into `GF(p)`. -/
theorem cast_emod_eq {grp : EcpGroup} {p : ℕ} (hg : GoodGroup grp p) (a : Int) :
    ((a % grp.P : Int) : ZMod p) = (a : ZMod p) := by
  rw [← hg.hp]
  exact ZMod.intCast_mod a p

/-- The Jacobian zero `(1, 1, 0)` represents the zero point. -/
theorem jac_zero_rep {grp : EcpGroup} {p : ℕ} [Fact p.Prime] (hg : GoodGroup grp p) :
    JacRep grp p ecp_ptjac_set_zero 0 :=
  ⟨inRangeJ_zero hg.valid.1, Or.inl ⟨rfl, rfl⟩⟩

/-- `ecp_aff_to_jac` preserves the represented point. -/
theorem aff_to_jac_rep {grp : EcpGroup} {p : ℕ} [Fact p.Prime] (hg : GoodGroup grp p)
    {Q : EcpPoint} {A : (Wcurve grp p).Point} (hQ : AffRep grp p Q A) :
    JacRep grp p (ecp_aff_to_jac Q) A := by
  have h1P : (1:Int) < grp.P := hg.valid.1
  rcases hQ with ⟨hz, hA⟩ | ⟨hz, hr, h, hA⟩
  · unfold ecp_aff_to_jac
    rw [if_pos hz]
    exact ⟨inRangeJ_zero h1P, Or.inl ⟨rfl, hA⟩⟩
  · unfold ecp_aff_to_jac
    rw [if_neg (by simp [hz])]
    obtain ⟨hx0, hx1, hy0, hy1⟩ := hr
    refine ⟨⟨hx0, hx1, hy0, hy1, by norm_num, by dsimp only; omega⟩,
      Or.inr ⟨by dsimp only; norm_num, ?_⟩⟩
    dsimp only
    rw [show ((1:Int) : ZMod p) = 1 from Int.cast_one]
    simp only [one_pow, div_one]
    exact ⟨h, hA⟩

/-- `ecp_jac_to_aff` succeeds on represented points and preserves the
represented point. -/
theorem jac_to_aff_rep {grp : EcpGroup} {p : ℕ} [Fact p.Prime] (hg : GoodGroup grp p)
    {J : EcpPtjac} {A : (Wcurve grp p).Point} (hJ : JacRep grp p J A) :
    ∃ R, ecp_jac_to_aff grp J = .ok R ∧ AffRep grp p R A := by
  have hp : (0:Int) < grp.P := by have := hg.valid.1; omega
  have hb : ∀ a : Int, 0 ≤ a % grp.P := fun a => Int.emod_nonneg a hp.ne'
  have hb' : ∀ a : Int, a % grp.P < grp.P := fun a => Int.emod_lt_of_pos a hp
  obtain ⟨hr, hd⟩ := hJ
  rcases hd with ⟨hz, hA⟩ | ⟨hz, h, hA⟩
  · refine ⟨⟨true, 0, 0⟩, ?_, Or.inl ⟨rfl, hA⟩⟩
    unfold ecp_jac_to_aff
    rw [if_pos hz]
    rfl
  · obtain ⟨hx0, hx1, hy0, hy1, hz0, hz1⟩ := hr
    have h3 : (p:Int) = grp.P := hg.hp
    have hgcd : Int.gcd J.Z grp.P = 1 := by
      rw [← h3]
      have hnd : ¬ (p:Int) ∣ J.Z := by
        intro hdvd
        rcases eq_or_lt_of_le hz0 with h4 | h4
        · exact hz h4.symm
        · have h5 := Int.le_of_dvd h4 hdvd
          omega
      have hco : IsCoprime ((p:Int)) J.Z :=
        (Prime.coprime_iff_not_dvd (Nat.prime_iff_prime_int.mp hg.prime)).mpr hnd
      rw [Int.gcd_comm]
      exact Int.isCoprime_iff_gcd_eq_one.mp hco
    obtain ⟨w, hw, hw0, hw1, hinv, heq⟩ :=
      ecp_jac_to_aff_eq hg.valid hz hgcd ⟨hx0, hx1, hy0, hy1, hz0, hz1⟩
    have hZne : ((J.Z : Int) : ZMod p) ≠ 0 := by
      rw [Ne, intCast_eq_zero_iff hg hz0 hz1]
      exact hz
    have hwinv : ((J.Z : Int) : ZMod p) * ((w : Int) : ZMod p) = 1 := by
      have h5 := congrArg (fun t : Int => (t : ZMod p)) hinv
      simpa [cast_emod_eq hg] using h5
    have hwe : ((w : Int) : ZMod p) = ((J.Z : Int) : ZMod p)⁻¹ :=
      eq_inv_of_mul_eq_one_left (by rw [mul_comm] at hwinv; exact hwinv)
    have eX : ((J.X * (w * w % grp.P) % grp.P : Int) : ZMod p)
        = (J.X : ZMod p) / (J.Z : ZMod p) ^ 2 := by
      push_cast [cast_emod_eq hg]
      rw [hwe, div_eq_mul_inv, ← inv_pow]
      ring
    have eY : ((J.Y * (w * w % grp.P) % grp.P * w % grp.P : Int) : ZMod p)
        = (J.Y : ZMod p) / (J.Z : ZMod p) ^ 3 := by
      push_cast [cast_emod_eq hg]
      rw [hwe, div_eq_mul_inv, ← inv_pow]
      ring
    refine ⟨_, heq, Or.inr ⟨rfl, ⟨hb _, hb' _, hb _, hb' _⟩, ?_⟩⟩
    dsimp only
    rw [eX, eY]
    exact ⟨h, hA⟩

/-- The GECC 3.21 doubling `X` formula agrees with the affine `addX` for
`a = −3` curves. -/
theorem double_addX_identity {F : Type} [Field F] (W : WeierstrassCurve.Affine F)
    (hW1 : W.a₁ = 0) (hW2 : W.a₂ = 0) (hW3 : W.a₃ = 0) (hW4 : W.a₄ = -3)
    (X Y Z : F) (hZ : Z ≠ 0) (hY : Y ≠ 0) (h2 : (2:F) ≠ 0)
    (hy : Y / Z ^ 3 ≠ W.negY (X / Z ^ 2) (Y / Z ^ 3)) :
    ((3 * (X - Z ^ 2) * (X + Z ^ 2)) ^ 2 - 8 * X * Y ^ 2) / (2 * Y * Z) ^ 2
      = W.addX (X / Z ^ 2) (X / Z ^ 2)
        (W.slope (X / Z ^ 2) (X / Z ^ 2) (Y / Z ^ 3) (Y / Z ^ 3)) := by
  have h2yz : 2 * Y * Z ≠ 0 := by
    intro hc
    rcases mul_eq_zero.mp hc with hc2 | hc2
    · rcases mul_eq_zero.mp hc2 with hc3 | hc3
      · exact h2 hc3
      · exact hY hc3
    · exact hZ hc2
  have hz3 : Z ^ 3 ≠ 0 := pow_ne_zero 3 hZ
  have hL : W.slope (X / Z ^ 2) (X / Z ^ 2) (Y / Z ^ 3) (Y / Z ^ 3)
      = (3 * X ^ 2 - 3 * Z ^ 4) / (2 * Y * Z) := by
    rw [WeierstrassCurve.Affine.slope_of_Y_ne rfl hy,
      WeierstrassCurve.Affine.negY, hW1, hW2, hW3, hW4]
    have hD : Y / Z ^ 3 - (-(Y / Z ^ 3) - 0 * (X / Z ^ 2) - 0) = 2 * Y / Z ^ 3 := by
      ring
    rw [hD, div_eq_div_iff (div_ne_zero (mul_ne_zero h2 hY) hz3) h2yz]
    field_simp
    ring
  rw [hL, WeierstrassCurve.Affine.addX, hW1, hW2, div_pow]
  field_simp
  ring

/-- The GECC 3.21 doubling `Y` formula agrees with the affine `addY` for
`a = −3` curves. -/
theorem double_addY_identity {F : Type} [Field F] (W : WeierstrassCurve.Affine F)
    (hW1 : W.a₁ = 0) (hW2 : W.a₂ = 0) (hW3 : W.a₃ = 0) (hW4 : W.a₄ = -3)
    (X Y Z : F) (hZ : Z ≠ 0) (hY : Y ≠ 0) (h2 : (2:F) ≠ 0)
    (hy : Y / Z ^ 3 ≠ W.negY (X / Z ^ 2) (Y / Z ^ 3)) :
    ((4 * X * Y ^ 2 - ((3 * (X - Z ^ 2) * (X + Z ^ 2)) ^ 2 - 8 * X * Y ^ 2))
        * (3 * (X - Z ^ 2) * (X + Z ^ 2)) - 8 * Y ^ 4) / (2 * Y * Z) ^ 3
      = W.addY (X / Z ^ 2) (X / Z ^ 2) (Y / Z ^ 3)
        (W.slope (X / Z ^ 2) (X / Z ^ 2) (Y / Z ^ 3) (Y / Z ^ 3)) := by
  have h2yz : 2 * Y * Z ≠ 0 := by
    intro hc
    rcases mul_eq_zero.mp hc with hc2 | hc2
    · rcases mul_eq_zero.mp hc2 with hc3 | hc3
      · exact h2 hc3
      · exact hY hc3
    · exact hZ hc2
  have hz3 : Z ^ 3 ≠ 0 := pow_ne_zero 3 hZ
  have hL : W.slope (X / Z ^ 2) (X / Z ^ 2) (Y / Z ^ 3) (Y / Z ^ 3)
      = (3 * X ^ 2 - 3 * Z ^ 4) / (2 * Y * Z) := by
    rw [WeierstrassCurve.Affine.slope_of_Y_ne rfl hy,
      WeierstrassCurve.Affine.negY, hW1, hW2, hW3, hW4]
    have hD : Y / Z ^ 3 - (-(Y / Z ^ 3) - 0 * (X / Z ^ 2) - 0) = 2 * Y / Z ^ 3 := by
      ring
    rw [hD, div_eq_div_iff (div_ne_zero (mul_ne_zero h2 hY) hz3) h2yz]
    field_simp
    ring
  rw [WeierstrassCurve.Affine.addY, WeierstrassCurve.Affine.negAddY,
    WeierstrassCurve.Affine.negY, hW1, hW3,
    ← double_addX_identity W hW1 hW2 hW3 hW4 X Y Z hZ hY h2 hy, hL]
  rw [zero_mul, sub_zero, sub_zero]
  rw [div_sub_div _ _ (pow_ne_zero 2 h2yz) (pow_ne_zero 2 hZ)]
  rw [div_mul_div_comm]
  rw [div_add_div _ _ (mul_ne_zero h2yz (mul_ne_zero (pow_ne_zero 2 h2yz) (pow_ne_zero 2 hZ))) hz3]
  rw [← neg_div]
  rw [div_eq_div_iff (pow_ne_zero 3 h2yz)
    (mul_ne_zero (mul_ne_zero h2yz (mul_ne_zero (pow_ne_zero 2 h2yz) (pow_ne_zero 2 hZ))) hz3)]
  ring

/-- The GECC 3.22 mixed-addition `X` formula agrees with the affine
`addX` when the `x`-coordinates differ. -/
theorem madd_addX_identity {F : Type} [Field F] (W : WeierstrassCurve.Affine F)
    (hW1 : W.a₁ = 0) (hW2 : W.a₂ = 0)
    (X Y Z x2 y2 : F) (hZ : Z ≠ 0) (ht1 : x2 * Z ^ 2 - X ≠ 0)
    (hx : X / Z ^ 2 ≠ x2) :
    ((y2 * Z ^ 3 - Y) ^ 2 - 2 * (x2 * Z ^ 2 - X) ^ 2 * X - (x2 * Z ^ 2 - X) ^ 3)
        / (Z * (x2 * Z ^ 2 - X)) ^ 2
      = W.addX (X / Z ^ 2) x2 (W.slope (X / Z ^ 2) x2 (Y / Z ^ 3) y2) := by
  have hzt : Z * (x2 * Z ^ 2 - X) ≠ 0 := mul_ne_zero hZ ht1
  have hL : W.slope (X / Z ^ 2) x2 (Y / Z ^ 3) y2
      = (y2 * Z ^ 3 - Y) / (Z * (x2 * Z ^ 2 - X)) := by
    rw [WeierstrassCurve.Affine.slope_of_X_ne hx]
    rw [div_eq_div_iff (sub_ne_zero_of_ne hx) hzt]
    field_simp
    ring
  rw [hL, WeierstrassCurve.Affine.addX, hW1, hW2, div_pow]
  field_simp
  ring

/-- The GECC 3.22 mixed-addition `Y` formula agrees with the affine
`addY` when the `x`-coordinates differ. -/
theorem madd_addY_identity {F : Type} [Field F] (W : WeierstrassCurve.Affine F)
    (hW1 : W.a₁ = 0) (hW2 : W.a₂ = 0) (hW3 : W.a₃ = 0)
    (X Y Z x2 y2 : F) (hZ : Z ≠ 0) (ht1 : x2 * Z ^ 2 - X ≠ 0)
    (hx : X / Z ^ 2 ≠ x2) :
    (((x2 * Z ^ 2 - X) ^ 2 * X
        - ((y2 * Z ^ 3 - Y) ^ 2 - 2 * (x2 * Z ^ 2 - X) ^ 2 * X - (x2 * Z ^ 2 - X) ^ 3))
        * (y2 * Z ^ 3 - Y) - (x2 * Z ^ 2 - X) ^ 3 * Y)
        / (Z * (x2 * Z ^ 2 - X)) ^ 3
      = W.addY (X / Z ^ 2) x2 (Y / Z ^ 3) (W.slope (X / Z ^ 2) x2 (Y / Z ^ 3) y2) := by
  have hzt : Z * (x2 * Z ^ 2 - X) ≠ 0 := mul_ne_zero hZ ht1
  have hz3 : Z ^ 3 ≠ 0 := pow_ne_zero 3 hZ
  have hL : W.slope (X / Z ^ 2) x2 (Y / Z ^ 3) y2
      = (y2 * Z ^ 3 - Y) / (Z * (x2 * Z ^ 2 - X)) := by
    rw [WeierstrassCurve.Affine.slope_of_X_ne hx]
    rw [div_eq_div_iff (sub_ne_zero_of_ne hx) hzt]
    field_simp
    ring
  rw [WeierstrassCurve.Affine.addY, WeierstrassCurve.Affine.negAddY,
    WeierstrassCurve.Affine.negY, hW1, hW3,
    ← madd_addX_identity W hW1 hW2 X Y Z x2 y2 hZ ht1 hx, hL]
  rw [zero_mul, sub_zero, sub_zero]
  rw [div_sub_div _ _ (pow_ne_zero 2 hzt) (pow_ne_zero 2 hZ)]
  rw [div_mul_div_comm]
  rw [div_add_div _ _ (mul_ne_zero hzt (mul_ne_zero (pow_ne_zero 2 hzt) (pow_ne_zero 2 hZ))) hz3]
  rw [← neg_div]
  rw [div_eq_div_iff (pow_ne_zero 3 hzt)
    (mul_ne_zero (mul_ne_zero hzt (mul_ne_zero (pow_ne_zero 2 hzt) (pow_ne_zero 2 hZ))) hz3)]
  ring

/-- The modulus of a good group is odd. -/
theorem P_odd {grp : EcpGroup} {p : ℕ} (hg : GoodGroup grp p) : grp.P % 2 = 1 := by
  obtain ⟨k, hk⟩ := hg.prime.odd_of_ne_two hg.podd
  have h2 : (p : Int) = 2 * k + 1 := by exact_mod_cast hk
  have h3 := hg.hp
  omega

/-- The cast of the modulus vanishes in `GF(p)`. -/
theorem cast_P_zero {grp : EcpGroup} {p : ℕ} (hg : GoodGroup grp p) :
    ((grp.P : Int) : ZMod p) = 0 := by
  rw [← hg.hp]
  push_cast
  exact ZMod.natCast_self p

/-- `2 ≠ 0` in `GF(p)` for an odd prime `p`. -/
theorem two_ne_zero_zmod {grp : EcpGroup} {p : ℕ} [Fact p.Prime] (hg : GoodGroup grp p) :
    (2 : ZMod p) ≠ 0 := by
  haveI : NeZero p := ⟨hg.prime.ne_zero⟩
  intro hcon
  have h2 : ((2 : ℕ) : ZMod p) = 0 := by exact_mod_cast hcon
  rw [ZMod.natCast_zmod_eq_zero_iff_dvd] at h2
  exact hg.podd ((Nat.prime_dvd_prime_iff_eq hg.prime Nat.prime_two).mp h2)

/-- Twice the halved value used by the doubling routine casts back to the
original value in `GF(p)`: the `+ p` branch is absorbed by the modulus. -/
theorem half_cast {grp : EcpGroup} {p : ℕ} (hg : GoodGroup grp p) (v : Int) :
    (2 : ZMod p) * (((if v % 2 = 1 then v + grp.P else v) / 2 : Int) : ZMod p)
      = ((v : Int) : ZMod p) := by
  have hodd := P_odd hg
  have h2 : (2:Int) ∣ (if v % 2 = 1 then v + grp.P else v) := by
    split <;> omega
  obtain ⟨c, hc⟩ := h2
  rw [hc, Int.mul_ediv_cancel_left c (by norm_num)]
  have h3 : ((v : Int) : ZMod p) = ((2 * c : Int) : ZMod p) := by
    rw [← hc]
    split
    · rw [Int.cast_add, cast_P_zero hg, add_zero]
    · rfl
  rw [h3]
  push_cast
  ring

/-- Halving a value whose image is `16c` yields a value whose image is
`8c`. -/
theorem half_cast_eight {grp : EcpGroup} {p : ℕ} [Fact p.Prime] (hg : GoodGroup grp p)
    {v : Int} {c : ZMod p} (hv : ((v : Int) : ZMod p) = 16 * c) :
    (((if v % 2 = 1 then v + grp.P else v) / 2 : Int) : ZMod p) = 8 * c := by
  have h1 := half_cast hg v
  rw [hv] at h1
  have h16 : (16 : ZMod p) * c = 2 * (8 * c) := by ring
  rw [h16] at h1
  exact mul_left_cancel₀ (two_ne_zero_zmod hg) h1

/-- On the engine's curve shape, `negY` is plain negation. -/
theorem Wcurve_negY {grp : EcpGroup} {p : ℕ} (x y : ZMod p) :
    (Wcurve grp p).negY x y = -y := by
  rw [WeierstrassCurve.Affine.negY]
  show -y - 0 * x - 0 = -y
  ring

/-- Transporting a nonsingular point along coordinate equalities. -/
theorem point_some_congr {F : Type} [Field F] {W : WeierstrassCurve.Affine F}
    {x y x' y' : F} (e1 : x' = x) (e2 : y' = y) (h : W.Nonsingular x y) :
    ∃ h' : W.Nonsingular x' y',
      WeierstrassCurve.Affine.Point.some h = WeierstrassCurve.Affine.Point.some h' := by
  subst e1
  subst e2
  exact ⟨h, rfl⟩

/-- `ecp_double_jac` succeeds on a represented point and represents the
sum `A + A`. -/
theorem double_jac_rep {grp : EcpGroup} {p : ℕ} [Fact p.Prime] (hg : GoodGroup grp p)
    {J : EcpPtjac} {A : (Wcurve grp p).Point} (hJ : JacRep grp p J A) :
    ∃ R, ecp_double_jac grp J = .ok R ∧ JacRep grp p R (A + A) := by
  have hp : (0:Int) < grp.P := by have := hg.valid.1; omega
  have hb : ∀ a : Int, 0 ≤ a % grp.P := fun a => Int.emod_nonneg a hp.ne'
  have hb' : ∀ a : Int, a % grp.P < grp.P := fun a => Int.emod_lt_of_pos a hp
  obtain ⟨hr, hd⟩ := hJ
  rcases hd with ⟨hz, hA⟩ | ⟨hz, h, hA⟩
  · refine ⟨ecp_ptjac_set_zero, ?_, ?_⟩
    · unfold ecp_double_jac
      rw [if_pos hz]
      rfl
    · rw [hA, add_zero]
      exact jac_zero_rep hg
  · obtain ⟨R, hok, hrR⟩ := ecp_double_jac_range hg.valid hr
    have heq := ecp_double_jac_eq hg.valid hz hr
    rw [hok] at heq
    have hval := Except.ok.inj heq
    refine ⟨R, hok, hrR, ?_⟩
    obtain ⟨hx0, hx1, hy0, hy1, hz0, hz1⟩ := hr
    have hZe : (J.Z : ZMod p) ≠ 0 := by
      rw [Ne, intCast_eq_zero_iff hg hz0 hz1]
      exact hz
    by_cases hY0 : J.Y = 0
    · refine Or.inl ⟨?_, ?_⟩
      · rw [hval]
        show J.Y * 2 % grp.P * J.Z % grp.P = 0
        rw [hY0]
        norm_num
      · rw [hA]
        refine WeierstrassCurve.Affine.Point.add_self_of_Y_eq ?_
        have hYe : (J.Y : ZMod p) = 0 := by
          rw [hY0]
          exact Int.cast_zero
        rw [Wcurve_negY, hYe]
        norm_num
    · have hYe : (J.Y : ZMod p) ≠ 0 := by
        rw [Ne, intCast_eq_zero_iff hg hy0 hy1]
        exact hY0
      have h2 : (2 : ZMod p) ≠ 0 := two_ne_zero_zmod hg
      have hyne : (J.Y : ZMod p) / (J.Z : ZMod p) ^ 3
          ≠ (Wcurve grp p).negY ((J.X : ZMod p) / (J.Z : ZMod p) ^ 2)
            ((J.Y : ZMod p) / (J.Z : ZMod p) ^ 3) := by
        rw [Wcurve_negY]
        intro hcon
        have h1 := eq_neg_iff_add_eq_zero.mp hcon
        rw [← two_mul] at h1
        rcases mul_eq_zero.mp h1 with h5 | h5
        · exact h2 h5
        · exact div_ne_zero hYe (pow_ne_zero 3 hZe) h5
      have hy4c : ((J.Y * 2 % grp.P * (J.Y * 2 % grp.P) % grp.P
            * (J.Y * 2 % grp.P * (J.Y * 2 % grp.P) % grp.P) % grp.P : Int) : ZMod p)
          = 16 * (J.Y : ZMod p) ^ 4 := by
        push_cast [cast_emod_eq hg]
        ring
      have hcz : (R.Z : ZMod p) = 2 * (J.Y : ZMod p) * (J.Z : ZMod p) := by
        rw [hval]
        push_cast [cast_emod_eq hg]
        ring
      have hcx : (R.X : ZMod p)
          = (3 * ((J.X : ZMod p) - (J.Z : ZMod p) ^ 2)
              * ((J.X : ZMod p) + (J.Z : ZMod p) ^ 2)) ^ 2
            - 8 * (J.X : ZMod p) * (J.Y : ZMod p) ^ 2 := by
        rw [hval]
        push_cast [cast_emod_eq hg]
        ring
      have hcy : (R.Y : ZMod p)
          = (4 * (J.X : ZMod p) * (J.Y : ZMod p) ^ 2
              - ((3 * ((J.X : ZMod p) - (J.Z : ZMod p) ^ 2)
                  * ((J.X : ZMod p) + (J.Z : ZMod p) ^ 2)) ^ 2
                - 8 * (J.X : ZMod p) * (J.Y : ZMod p) ^ 2))
              * (3 * ((J.X : ZMod p) - (J.Z : ZMod p) ^ 2)
                * ((J.X : ZMod p) + (J.Z : ZMod p) ^ 2))
            - 8 * (J.Y : ZMod p) ^ 4 := by
        rw [hval]
        push_cast [cast_emod_eq hg, half_cast_eight hg hy4c]
        ring
      refine Or.inr ⟨?_, ?_⟩
      · intro hc
        rw [hc, Int.cast_zero] at hcz
        rcases mul_eq_zero.mp hcz.symm with h5 | h5
        · rcases mul_eq_zero.mp h5 with h6 | h6
          · exact h2 h6
          · exact hYe h6
        · exact hZe h5
      · rw [hA, WeierstrassCurve.Affine.Point.add_self_of_Y_ne hyne]
        have e1 : (R.X : ZMod p) / (R.Z : ZMod p) ^ 2
            = (Wcurve grp p).addX ((J.X : ZMod p) / (J.Z : ZMod p) ^ 2)
              ((J.X : ZMod p) / (J.Z : ZMod p) ^ 2)
              ((Wcurve grp p).slope ((J.X : ZMod p) / (J.Z : ZMod p) ^ 2)
                ((J.X : ZMod p) / (J.Z : ZMod p) ^ 2)
                ((J.Y : ZMod p) / (J.Z : ZMod p) ^ 3)
                ((J.Y : ZMod p) / (J.Z : ZMod p) ^ 3)) := by
          rw [hcx, hcz]
          exact double_addX_identity (Wcurve grp p) rfl rfl rfl rfl
            (J.X : ZMod p) (J.Y : ZMod p) (J.Z : ZMod p) hZe hYe h2 hyne
        have e2 : (R.Y : ZMod p) / (R.Z : ZMod p) ^ 3
            = (Wcurve grp p).addY ((J.X : ZMod p) / (J.Z : ZMod p) ^ 2)
              ((J.X : ZMod p) / (J.Z : ZMod p) ^ 2)
              ((J.Y : ZMod p) / (J.Z : ZMod p) ^ 3)
              ((Wcurve grp p).slope ((J.X : ZMod p) / (J.Z : ZMod p) ^ 2)
                ((J.X : ZMod p) / (J.Z : ZMod p) ^ 2)
                ((J.Y : ZMod p) / (J.Z : ZMod p) ^ 3)
                ((J.Y : ZMod p) / (J.Z : ZMod p) ^ 3)) := by
          rw [hcy, hcz]
          exact double_addY_identity (Wcurve grp p) rfl rfl rfl rfl
            (J.X : ZMod p) (J.Y : ZMod p) (J.Z : ZMod p) hZe hYe h2 hyne
        exact point_some_congr e1 e2 _

/-- `ecp_add_mixed` succeeds on represented points and represents the sum
`A + B`. -/
theorem add_mixed_rep {grp : EcpGroup} {p : ℕ} [Fact p.Prime] (hg : GoodGroup grp p)
    {J : EcpPtjac} {Q : EcpPoint} {A B : (Wcurve grp p).Point}
    (hJ : JacRep grp p J A) (hQ : AffRep grp p Q B) :
    ∃ R, ecp_add_mixed grp J Q = .ok R ∧ JacRep grp p R (A + B) := by
  have hp : (0:Int) < grp.P := by have := hg.valid.1; omega
  have hb : ∀ a : Int, 0 ≤ a % grp.P := fun a => Int.emod_nonneg a hp.ne'
  have hb' : ∀ a : Int, a % grp.P < grp.P := fun a => Int.emod_lt_of_pos a hp
  obtain ⟨hr, hd⟩ := hJ
  by_cases hz : J.Z = 0
  · have hA0 : A = 0 := by
      rcases hd with ⟨_, hA⟩ | ⟨hz', _⟩
      · exact hA
      · exact absurd hz hz'
    refine ⟨ecp_aff_to_jac Q, ?_, ?_⟩
    · unfold ecp_add_mixed
      rw [if_pos hz]
      rfl
    · rw [hA0, zero_add]
      exact aff_to_jac_rep hg hQ
  · have hd' : J.Z ≠ 0 ∧
        ∃ hh : (Wcurve grp p).Nonsingular ((J.X : ZMod p) / (J.Z : ZMod p) ^ 2)
          ((J.Y : ZMod p) / (J.Z : ZMod p) ^ 3),
          A = WeierstrassCurve.Affine.Point.some hh := by
      rcases hd with ⟨hz0, _⟩ | hgood
      · exact absurd hz0 hz
      · exact hgood
    obtain ⟨-, h, hA⟩ := hd'
    rcases hQ with ⟨hqz, hB⟩ | ⟨hqz, hrQA, h₂, hB⟩
    · refine ⟨J, ?_, ?_⟩
      · unfold ecp_add_mixed
        rw [if_neg hz, if_pos (by simp [hqz])]
        rfl
      · rw [hB, add_zero]
        exact ⟨hr, Or.inr ⟨hz, h, hA⟩⟩
    · have hmix := ecp_add_mixed_eq hg.valid hz hqz hr hrQA
      obtain ⟨hx0, hx1, hy0, hy1, hz0, hz1⟩ := id hr
      have hZe : (J.Z : ZMod p) ≠ 0 := by
        rw [Ne, intCast_eq_zero_iff hg hz0 hz1]
        exact hz
      by_cases h1 : (Q.X * J.Z ^ 2 - J.X) % grp.P = 0
      · have hx0' : (Q.X : ZMod p) * (J.Z : ZMod p) ^ 2 = (J.X : ZMod p) := by
          have h5 : ((Q.X * J.Z ^ 2 - J.X : Int) : ZMod p) = 0 := by
            rw [← cast_emod_eq hg, h1, Int.cast_zero]
          have h6 : (Q.X : ZMod p) * (J.Z : ZMod p) ^ 2 - (J.X : ZMod p) = 0 := by
            push_cast at h5
            exact h5
          exact sub_eq_zero.mp h6
        have ex : (J.X : ZMod p) / (J.Z : ZMod p) ^ 2 = (Q.X : ZMod p) := by
          rw [div_eq_iff (pow_ne_zero 2 hZe)]
          exact hx0'.symm
        rw [if_pos h1] at hmix
        by_cases h2t : (Q.Y * J.Z ^ 3 - J.Y) % grp.P = 0
        · rw [if_pos h2t] at hmix
          have hy0' : (Q.Y : ZMod p) * (J.Z : ZMod p) ^ 3 = (J.Y : ZMod p) := by
            have h5 : ((Q.Y * J.Z ^ 3 - J.Y : Int) : ZMod p) = 0 := by
              rw [← cast_emod_eq hg, h2t, Int.cast_zero]
            have h6 : (Q.Y : ZMod p) * (J.Z : ZMod p) ^ 3 - (J.Y : ZMod p) = 0 := by
              push_cast at h5
              exact h5
            exact sub_eq_zero.mp h6
          have ey : (J.Y : ZMod p) / (J.Z : ZMod p) ^ 3 = (Q.Y : ZMod p) := by
            rw [div_eq_iff (pow_ne_zero 3 hZe)]
            exact hy0'.symm
          have hBA : B = A := by
            rw [hA, hB]
            obtain ⟨h', he⟩ := point_some_congr ex.symm ey.symm h
            exact he.symm
          obtain ⟨R, hok, hrep⟩ := double_jac_rep hg ⟨hr, Or.inr ⟨hz, h, hA⟩⟩
          refine ⟨R, ?_, ?_⟩
          · rw [hmix]
            exact hok
          · rw [hBA]
            exact hrep
        · rw [if_neg h2t] at hmix
          have ht2c : ((Q.Y * J.Z ^ 3 - J.Y : Int) : ZMod p) ≠ 0 := by
            rw [← cast_emod_eq hg, Ne, intCast_eq_zero_iff hg (hb _) (hb' _)]
            exact h2t
          have hyne2 : (Q.Y : ZMod p) ≠ (J.Y : ZMod p) / (J.Z : ZMod p) ^ 3 := by
            intro hcon
            apply ht2c
            push_cast
            rw [hcon, div_mul_cancel₀ _ (pow_ne_zero 3 hZe), sub_self]
          have hyeq : (J.Y : ZMod p) / (J.Z : ZMod p) ^ 3
              = (Wcurve grp p).negY (Q.X : ZMod p) (Q.Y : ZMod p) := by
            rcases WeierstrassCurve.Affine.Y_eq_of_X_eq h.1 h₂.1 ex with h5 | h5
            · exact absurd h5.symm hyne2
            · exact h5
          refine ⟨ecp_ptjac_set_zero, hmix, inRangeJ_zero hg.valid.1, Or.inl ⟨rfl, ?_⟩⟩
          rw [hA, hB]
          exact WeierstrassCurve.Affine.Point.add_of_Y_eq ex hyeq
      · rw [if_neg h1] at hmix
        rw [ecp_add_mixed_tail_eq hg.valid hr (hb _) (hb' _) (hb _) (hb' _)] at hmix
        obtain ⟨R, hok, hrR⟩ := ecp_add_mixed_range hg.valid hr (fun _ => hrQA)
        rw [hok] at hmix
        have hval := Except.ok.inj hmix
        have ht1c : (Q.X : ZMod p) * (J.Z : ZMod p) ^ 2 - (J.X : ZMod p) ≠ 0 := by
          have h5 : ((Q.X * J.Z ^ 2 - J.X : Int) : ZMod p) ≠ 0 := by
            rw [← cast_emod_eq hg, Ne, intCast_eq_zero_iff hg (hb _) (hb' _)]
            exact h1
          intro hcon
          apply h5
          push_cast
          exact hcon
        have hxne : (J.X : ZMod p) / (J.Z : ZMod p) ^ 2 ≠ (Q.X : ZMod p) := by
          intro hcon
          apply ht1c
          rw [← hcon, div_mul_cancel₀ _ (pow_ne_zero 2 hZe), sub_self]
        have hcz : (R.Z : ZMod p)
            = (J.Z : ZMod p) * ((Q.X : ZMod p) * (J.Z : ZMod p) ^ 2 - (J.X : ZMod p)) := by
          rw [hval]
          push_cast [cast_emod_eq hg]
          ring
        have hcx : (R.X : ZMod p)
            = ((Q.Y : ZMod p) * (J.Z : ZMod p) ^ 3 - (J.Y : ZMod p)) ^ 2
              - 2 * ((Q.X : ZMod p) * (J.Z : ZMod p) ^ 2 - (J.X : ZMod p)) ^ 2 * (J.X : ZMod p)
              - ((Q.X : ZMod p) * (J.Z : ZMod p) ^ 2 - (J.X : ZMod p)) ^ 3 := by
          rw [hval]
          push_cast [cast_emod_eq hg]
          ring
        have hcy : (R.Y : ZMod p)
            = (((Q.X : ZMod p) * (J.Z : ZMod p) ^ 2 - (J.X : ZMod p)) ^ 2 * (J.X : ZMod p)
                - (((Q.Y : ZMod p) * (J.Z : ZMod p) ^ 3 - (J.Y : ZMod p)) ^ 2
                  - 2 * ((Q.X : ZMod p) * (J.Z : ZMod p) ^ 2 - (J.X : ZMod p)) ^ 2
                    * (J.X : ZMod p)
                  - ((Q.X : ZMod p) * (J.Z : ZMod p) ^ 2 - (J.X : ZMod p)) ^ 3))
                * ((Q.Y : ZMod p) * (J.Z : ZMod p) ^ 3 - (J.Y : ZMod p))
              - ((Q.X : ZMod p) * (J.Z : ZMod p) ^ 2 - (J.X : ZMod p)) ^ 3
                * (J.Y : ZMod p) := by
          rw [hval]
          push_cast [cast_emod_eq hg]
          ring
        refine ⟨R, hok, hrR, Or.inr ⟨?_, ?_⟩⟩
        · intro hc
          rw [hc, Int.cast_zero] at hcz
          rcases mul_eq_zero.mp hcz.symm with h5 | h5
          · exact hZe h5
          · exact ht1c h5
        · rw [hA, hB, WeierstrassCurve.Affine.Point.add_of_X_ne hxne]
          have e1 : (R.X : ZMod p) / (R.Z : ZMod p) ^ 2
              = (Wcurve grp p).addX ((J.X : ZMod p) / (J.Z : ZMod p) ^ 2) (Q.X : ZMod p)
                ((Wcurve grp p).slope ((J.X : ZMod p) / (J.Z : ZMod p) ^ 2) (Q.X : ZMod p)
                  ((J.Y : ZMod p) / (J.Z : ZMod p) ^ 3) (Q.Y : ZMod p)) := by
            rw [hcx, hcz]
            exact madd_addX_identity (Wcurve grp p) rfl rfl
              (J.X : ZMod p) (J.Y : ZMod p) (J.Z : ZMod p) (Q.X : ZMod p) (Q.Y : ZMod p)
              hZe ht1c hxne
          have e2 : (R.Y : ZMod p) / (R.Z : ZMod p) ^ 3
              = (Wcurve grp p).addY ((J.X : ZMod p) / (J.Z : ZMod p) ^ 2) (Q.X : ZMod p)
                ((J.Y : ZMod p) / (J.Z : ZMod p) ^ 3)
                ((Wcurve grp p).slope ((J.X : ZMod p) / (J.Z : ZMod p) ^ 2) (Q.X : ZMod p)
                  ((J.Y : ZMod p) / (J.Z : ZMod p) ^ 3) (Q.Y : ZMod p)) := by
            rw [hcy, hcz]
            exact madd_addY_identity (Wcurve grp p) rfl rfl rfl
              (J.X : ZMod p) (J.Y : ZMod p) (J.Z : ZMod p) (Q.X : ZMod p) (Q.Y : ZMod p)
              hZe ht1c hxne
          exact point_some_congr e1 e2 _

/-- The ladder invariant: starting iteration `pos` from a Jacobian point
representing `(|m| / 2^(pos+1)) • B`, the loop ends representing
`|m| • B`. -/
theorem ecp_mul_loop_correct {grp : EcpGroup} {p : ℕ} [Fact p.Prime] (hg : GoodGroup grp p)
    {Q : EcpPoint} {B : (Wcurve grp p).Point} (hQ : AffRep grp p Q B) (m : Int) :
    ∀ (pos : Nat) {q0 : EcpPtjac},
      JacRep grp p q0 ((m.natAbs / 2 ^ (pos + 1)) • B) →
      ∃ R, ecp_mul_loop grp m Q pos q0 = .ok R ∧ JacRep grp p R (m.natAbs • B) := by
  intro pos
  induction pos with
  | zero =>
    intro q0 hq0
    obtain ⟨q0', hok1, hrep1⟩ := double_jac_rep hg hq0
    obtain ⟨q1, hok2, hrep2⟩ := add_mixed_rep hg hrep1 hQ
    refine ⟨if mpi_get_bit m 0 = 1 then q1 else q0', ?_, ?_⟩
    · simp only [ecp_mul_loop]
      rw [hok1, except_ok_bind, hok2, except_ok_bind]
      rfl
    · by_cases hbit : mpi_get_bit m 0 = 1
      · rw [if_pos hbit]
        have hb1 : m.natAbs % 2 = 1 := by simpa [mpi_get_bit] using hbit
        have he : (m.natAbs / 2 ^ (0 + 1)) • B + (m.natAbs / 2 ^ (0 + 1)) • B + B
            = m.natAbs • B := by
          calc (m.natAbs / 2 ^ (0 + 1)) • B + (m.natAbs / 2 ^ (0 + 1)) • B + B
              = (m.natAbs / 2 ^ (0 + 1) + m.natAbs / 2 ^ (0 + 1) + 1) • B := by
                rw [add_nsmul, add_nsmul, one_nsmul]
            _ = m.natAbs • B := by
                rw [show m.natAbs / 2 ^ (0 + 1) + m.natAbs / 2 ^ (0 + 1) + 1 = m.natAbs from by
                  rw [pow_one]
                  omega]
        exact he ▸ hrep2
      · rw [if_neg hbit]
        have hb0 : m.natAbs % 2 = 0 := by
          have h5 : m.natAbs / 2 ^ 0 % 2 = 0 ∨ m.natAbs / 2 ^ 0 % 2 = 1 := by omega
          rcases h5 with h5 | h5
          · simpa [mpi_get_bit] using h5
          · exact absurd (by simpa [mpi_get_bit] using h5) hbit
        have he : (m.natAbs / 2 ^ (0 + 1)) • B + (m.natAbs / 2 ^ (0 + 1)) • B
            = m.natAbs • B := by
          calc (m.natAbs / 2 ^ (0 + 1)) • B + (m.natAbs / 2 ^ (0 + 1)) • B
              = (m.natAbs / 2 ^ (0 + 1) + m.natAbs / 2 ^ (0 + 1)) • B := by
                rw [add_nsmul]
            _ = m.natAbs • B := by
                rw [show m.natAbs / 2 ^ (0 + 1) + m.natAbs / 2 ^ (0 + 1) = m.natAbs from by
                  rw [pow_one]
                  omega]
        exact he ▸ hrep1
  | succ pos ih =>
    intro q0 hq0
    obtain ⟨q0', hok1, hrep1⟩ := double_jac_rep hg hq0
    obtain ⟨q1, hok2, hrep2⟩ := add_mixed_rep hg hrep1 hQ
    have hdd : m.natAbs / 2 ^ (pos + 1 + 1) = m.natAbs / 2 ^ (pos + 1) / 2 := by
      rw [pow_succ, Nat.div_div_eq_div_mul]
    have hstart : JacRep grp p (if mpi_get_bit m (pos + 1) = 1 then q1 else q0')
        ((m.natAbs / 2 ^ (pos + 1)) • B) := by
      by_cases hbit : mpi_get_bit m (pos + 1) = 1
      · rw [if_pos hbit]
        have hb1 : m.natAbs / 2 ^ (pos + 1) % 2 = 1 := by
          simpa [mpi_get_bit] using hbit
        have he : (m.natAbs / 2 ^ (pos + 1 + 1)) • B + (m.natAbs / 2 ^ (pos + 1 + 1)) • B + B
            = (m.natAbs / 2 ^ (pos + 1)) • B := by
          calc (m.natAbs / 2 ^ (pos + 1 + 1)) • B + (m.natAbs / 2 ^ (pos + 1 + 1)) • B + B
              = (m.natAbs / 2 ^ (pos + 1 + 1) + m.natAbs / 2 ^ (pos + 1 + 1) + 1) • B := by
                rw [add_nsmul, add_nsmul, one_nsmul]
            _ = (m.natAbs / 2 ^ (pos + 1)) • B := by
                rw [show m.natAbs / 2 ^ (pos + 1 + 1) + m.natAbs / 2 ^ (pos + 1 + 1) + 1
                    = m.natAbs / 2 ^ (pos + 1) from by omega]
        exact he ▸ hrep2
      · rw [if_neg hbit]
        have hb0 : m.natAbs / 2 ^ (pos + 1) % 2 = 0 := by
          have h5 : m.natAbs / 2 ^ (pos + 1) % 2 = 0 ∨ m.natAbs / 2 ^ (pos + 1) % 2 = 1 := by
            omega
          rcases h5 with h5 | h5
          · exact h5
          · exact absurd (by simpa [mpi_get_bit] using h5) hbit
        have he : (m.natAbs / 2 ^ (pos + 1 + 1)) • B + (m.natAbs / 2 ^ (pos + 1 + 1)) • B
            = (m.natAbs / 2 ^ (pos + 1)) • B := by
          calc (m.natAbs / 2 ^ (pos + 1 + 1)) • B + (m.natAbs / 2 ^ (pos + 1 + 1)) • B
              = (m.natAbs / 2 ^ (pos + 1 + 1) + m.natAbs / 2 ^ (pos + 1 + 1)) • B := by
                rw [add_nsmul]
            _ = (m.natAbs / 2 ^ (pos + 1)) • B := by
                rw [show m.natAbs / 2 ^ (pos + 1 + 1) + m.natAbs / 2 ^ (pos + 1 + 1)
                    = m.natAbs / 2 ^ (pos + 1) from by omega]
        exact he ▸ hrep1
    obtain ⟨R, hokR, hrepR⟩ := ih hstart
    refine ⟨R, ?_, hrepR⟩
    simp only [ecp_mul_loop]
    rw [hok1, except_ok_bind, hok2, except_ok_bind]
    exact hokR

/-- `ecp_mul` on a non-zero scalar succeeds and represents `|m| • B`. -/
theorem ecp_mul_correct {grp : EcpGroup} {p : ℕ} [Fact p.Prime] (hg : GoodGroup grp p)
    {Q : EcpPoint} {B : (Wcurve grp p).Point} (hQ : AffRep grp p Q B)
    {m : Int} (hm : m ≠ 0) :
    ∃ R, ecp_mul grp m Q = .ok R ∧ AffRep grp p R (m.natAbs • B) := by
  have hk0 : m.natAbs ≠ 0 := by
    intro h5
    exact hm (by omega)
  have hmsb : m.natAbs < 2 ^ mpi_msb m := by
    unfold mpi_msb
    rw [if_neg hm]
    exact (Nat.log2_lt hk0).mp (Nat.lt_succ_self _)
  have hsucc : mpi_msb m - 1 + 1 = mpi_msb m := by
    unfold mpi_msb
    rw [if_neg hm]
    omega
  have hq0 : JacRep grp p ecp_ptjac_set_zero ((m.natAbs / 2 ^ (mpi_msb m - 1 + 1)) • B) := by
    have h5 : m.natAbs / 2 ^ (mpi_msb m - 1 + 1) = 0 := by
      apply Nat.div_eq_of_lt
      rw [hsucc]
      exact hmsb
    rw [h5, zero_nsmul]
    exact jac_zero_rep hg
  obtain ⟨R0, hok, hrep⟩ := ecp_mul_loop_correct hg hQ m (mpi_msb m - 1) hq0
  obtain ⟨R, hproj, haff⟩ := jac_to_aff_rep hg hrep
  refine ⟨R, ?_, haff⟩
  unfold ecp_mul
  rw [if_neg hm, hok, except_ok_bind]
  exact hproj

/-- Congruence for `Except` binds with pointwise-equal continuations. -/
theorem except_bind_congr {ε α β : Type} {x : Except ε α} {f g : α → Except ε β}
    (h : ∀ a, f a = g a) : x >>= f = x >>= g := by
  cases x with
  | error e => rfl
  | ok a => exact h a

/-- Claim C1: on a valid group whose modulus is an odd prime `p`, and an
affine point `P` representing the curve point `B` (on the curve, reduced
coordinates), `ecp_mul` with a non-negative scalar `k` succeeds; the
result represents `k • B`, and for `k = 0` it is literally the zero point
`(is_zero, 0, 0)`.  For `k ≥ 1` the computation is the double-and-add
ladder `ecp_mul_loop` from bit `msb(k) − 1` down to `0` followed by the
projection to affine, as embedded from the source. -/
theorem C1_mul_ladder {grp : EcpGroup} {p : ℕ} [Fact p.Prime] (hg : GoodGroup grp p)
    {P : EcpPoint} {B : (Wcurve grp p).Point} (hP : AffRep grp p P B)
    {k : Int} (hk : 0 ≤ k) :
    ∃ R, ecp_mul grp k P = .ok R ∧ AffRep grp p R (k.toNat • B) ∧
      (k = 0 → R = ⟨true, 0, 0⟩) := by
  by_cases hk0 : k = 0
  · subst hk0
    refine ⟨⟨true, 0, 0⟩, ?_, ?_, fun _ => rfl⟩
    · unfold ecp_mul
      rw [if_pos rfl]
      rfl
    · rw [Int.toNat_zero, zero_nsmul]
      exact Or.inl ⟨rfl, rfl⟩
  · obtain ⟨R, hok, haff⟩ := ecp_mul_correct hg hP hk0
    refine ⟨R, hok, ?_, fun h => absurd h hk0⟩
    have h5 : k.natAbs = k.toNat := by omega
    rw [← h5]
    exact haff

/-- Claim C10: `ecp_mul` never rejects a negative scalar: for `k < 0` it
computes exactly what it computes for `−k = |k|` (the scalar enters only
through the zero test, `mpi_msb` and `mpi_get_bit`, which ignore the
sign), so on a represented point it succeeds and represents `|k| • B`
rather than failing or producing `−(|k| • B)`. -/
theorem C10_negative_scalar {grp : EcpGroup} {p : ℕ} [Fact p.Prime] (hg : GoodGroup grp p)
    {P : EcpPoint} {B : (Wcurve grp p).Point} (hP : AffRep grp p P B)
    {k : Int} (hk : k < 0) :
    ecp_mul grp k P = ecp_mul grp (-k) P ∧
    ∃ R, ecp_mul grp k P = .ok R ∧ AffRep grp p R (k.natAbs • B) := by
  have hkne : k ≠ 0 := by omega
  have hmb : ∀ pos, mpi_get_bit k pos = mpi_get_bit (-k) pos := by
    intro pos
    unfold mpi_get_bit
    rw [Int.natAbs_neg]
  have hms : mpi_msb k = mpi_msb (-k) := by
    unfold mpi_msb
    rw [if_neg hkne, if_neg (show ¬ -k = 0 by omega), Int.natAbs_neg]
  have hloop : ∀ pos q0, ecp_mul_loop grp k P pos q0 = ecp_mul_loop grp (-k) P pos q0 := by
    intro pos
    induction pos with
    | zero =>
      intro q0
      simp only [ecp_mul_loop, hmb]
    | succ pos ih =>
      intro q0
      simp only [ecp_mul_loop, hmb]
      refine except_bind_congr fun a => ?_
      refine except_bind_congr fun b => ?_
      exact ih _
  refine ⟨?_, ecp_mul_correct hg hP hkne⟩
  unfold ecp_mul
  rw [if_neg hkne, if_neg (show ¬ -k = 0 by omega), hms, hloop]

/-- The toy good group used by the functional-correctness witnesses:
`p = 7`, curve `y² = x³ − 3x + 3` over `GF(7)`. -/
theorem grp7_good : GoodGroup grp7 7 :=
  ⟨by decide, by decide, by norm_num, by decide⟩

/-- The base point `(1, 1)` of `grp7` is a nonsingular curve point. -/
theorem grp7_nonsing :
    (Wcurve grp7 7).Nonsingular (((1:Int) : ZMod 7)) (((1:Int) : ZMod 7)) := by
  rw [WeierstrassCurve.Affine.nonsingular_iff, WeierstrassCurve.Affine.equation_iff]
  decide

/-- The base point of `grp7` represents a curve point. -/
theorem grp7_G_rep :
    AffRep grp7 7 grp7.G (WeierstrassCurve.Affine.Point.some grp7_nonsing) :=
  Or.inr ⟨rfl, by decide, grp7_nonsing, rfl⟩

/-- Witness for C1: the scalar `5` on the represented base point of the
toy group. -/
theorem C1_witness :
    (0:Int) ≤ 5 ∧
    ∃ B, AffRep grp7 7 grp7.G B ∧
      ∃ R, ecp_mul grp7 5 grp7.G = .ok R ∧ AffRep grp7 7 R ((5:Int).toNat • B) ∧
        ((5:Int) = 0 → R = ⟨true, 0, 0⟩) := by
  haveI : Fact (Nat.Prime 7) := ⟨by norm_num⟩
  exact ⟨by norm_num, WeierstrassCurve.Affine.Point.some grp7_nonsing, grp7_G_rep,
    C1_mul_ladder grp7_good grp7_G_rep (by norm_num)⟩

/-- Witness for C10: the scalar `−5` on the represented base point of the
toy group. -/
theorem C10_witness :
    (-5:Int) < 0 ∧
    ∃ B, AffRep grp7 7 grp7.G B ∧
      (ecp_mul grp7 (-5) grp7.G = ecp_mul grp7 (-(-5)) grp7.G ∧
       ∃ R, ecp_mul grp7 (-5) grp7.G = .ok R ∧
         AffRep grp7 7 R ((-5:Int).natAbs • B)) := by
  haveI : Fact (Nat.Prime 7) := ⟨by norm_num⟩
  exact ⟨by norm_num, WeierstrassCurve.Affine.Point.some grp7_nonsing, grp7_G_rep,
    C10_negative_scalar grp7_good grp7_G_rep (by norm_num)⟩

end Ecp

namespace SslCache

/-- C8: inserting a session whose id is not in the cache while
`max_entries > 0` and the cache holds at least `max_entries` entries evicts
the head of the internal list (the oldest entry, first in insertion order),
reuses its slot for the new session at the tail, and performs no
allocation. -/
theorem C8_cache_eviction {t : Int} {cache : SslCacheContext} {s : SslSession}
    (hnot : ∀ e ∈ cache.sessions, cacheKey e.session ≠ cacheKey s)
    (hmax : 0 < cache.max_entries)
    (hfull : cache.max_entries.toNat ≤ cache.sessions.length)
    {oldest : SslCacheEntry} {rest : List SslCacheEntry}
    (hsess : cache.sessions = oldest :: rest) :
    ssl_cache_set t cache s =
      ({ cache with sessions := rest ++ [⟨t, stripCert s⟩] }, false) := by
  have hfind : cache.sessions.findIdx? (fun e => cacheKey e.session = cacheKey s)
      = none := by
    rw [List.findIdx?_eq_none_iff]
    intro e he
    simpa using hnot e he
  unfold ssl_cache_set
  rw [hfind]
  simp only [hsess]
  rw [if_pos ⟨hmax, by rw [hsess] at hfull; exact hfull⟩]

/-- C8 witness: the theorem applied to a concrete two-entry full cache. -/
theorem C8_witness :
    ssl_cache_set 100
      ⟨0, 2, [⟨10, ⟨1, 0, 2, [1, 1], [7], false⟩⟩, ⟨20, ⟨1, 0, 2, [2, 2], [8], false⟩⟩]⟩
      ⟨1, 0, 2, [3, 3], [9], true⟩ =
      (⟨0, 2, [⟨20, ⟨1, 0, 2, [2, 2], [8], false⟩⟩,
        ⟨100, ⟨1, 0, 2, [3, 3], [9], false⟩⟩]⟩, false) := by
  have h := @C8_cache_eviction 100
    ⟨0, 2, [⟨10, ⟨1, 0, 2, [1, 1], [7], false⟩⟩,
      ⟨20, ⟨1, 0, 2, [2, 2], [8], false⟩⟩]⟩
    ⟨1, 0, 2, [3, 3], [9], true⟩
    (by decide) (by decide) (by decide)
    ⟨10, ⟨1, 0, 2, [1, 1], [7], false⟩⟩ [⟨20, ⟨1, 0, 2, [2, 2], [8], false⟩⟩] rfl
  exact h

end SslCache
